import Mathlib

set_option maxHeartbeats 1000000
set_option maxRecDepth 8000

/-!
Formal model of the healthcare orchestrator simulation repository.

The development shallowly embeds the discrete-event simulation core of the
repository: the pure triage classifiers (`classify_urgency` from
baseline_rulebased.py, `classify_priority` from baseline_partial.py,
`triage_patient` from baseline_fifo.py), the stage-delay generator
(`generate_delay` from simulation_engine.py), and the FIFO-baseline
discrete-event simulation (`FIFOBaseline` / `run_fifo_baseline` from
baseline_fifo.py) as an explicit event-queue step machine.

Floating-point numbers are modelled as rationals.  Randomness is modelled by
an explicit oracle: the k-th call to a numpy sampling routine returns the
oracle value for draw index k.  Seeding (np.random.seed) makes the numpy draw
stream a pure function of the seed, so the oracle plays the role of the seed;
the parameter-domain checks that numpy performs at sampling time are modelled
explicitly and surface as error values, since the repository contains no
validation of its own.
-/

/-! ## String helpers: Python `keyword in diagnosis.lower()` -/

/-- Boolean test that the second character list is an initial segment of the
first (helper for Python substring containment). -/
def beginsWith : List Char → List Char → Bool
  | _, [] => true
  | [], _ :: _ => false
  | a :: as, b :: bs => a == b && beginsWith as bs

/-- Boolean test that the second character list occurs contiguously inside the
first, as Python `needle in hay`. -/
def hasSegment : List Char → List Char → Bool
  | [], needle => needle.isEmpty
  | h :: t, needle => beginsWith (h :: t) needle || hasSegment t needle

/-- Model of Python `needle in hay.lower()` (the keyword literals in the
source are already lower-case). -/
def containsLower (hay needle : String) : Bool :=
  hasSegment (hay.data.map Char.toLower) needle.data

/-! ## baseline_rulebased.py: RULES and classify_urgency -/

/-- RULES age threshold from RuleBasedBaseline.RULES. -/
def RULES_age_threshold : Nat := 65

/-- RULES urgent keywords from RuleBasedBaseline.RULES. -/
def RULES_urgent_keywords : List String :=
  ["cancer", "acute", "emergency", "critical", "urgent"]

/-- RULES high-priority conditions from RuleBasedBaseline.RULES. -/
def RULES_high_priority_conditions : List String :=
  ["diabetes", "hypertension", "coronary"]

/-- RuleBasedBaseline.classify_urgency: age rule, then urgent keywords, then
high-priority conditions, else NORMAL. -/
def classify_urgency (age : Nat) (diagnosis : String) : String :=
  if RULES_age_threshold ≤ age then "HIGH"
  else if RULES_urgent_keywords.any (fun kw => containsLower diagnosis kw) then "URGENT"
  else if RULES_high_priority_conditions.any (fun kw => containsLower diagnosis kw) then "HIGH"
  else "NORMAL"

/-! ## baseline_partial.py: classify_priority -/

/-- The deterministic age/diagnosis rule inside
PartialAutomationBaseline.classify_priority (the branch taken on a correct
classification). -/
def classify_priority_rule (age : Nat) (diagnosis : String) : String :=
  if 70 ≤ age ∨ containsLower diagnosis "acute" then "HIGH"
  else if 65 ≤ age ∨ containsLower diagnosis "cancer" then "MEDIUM"
  else "NORMAL"

/-- The list passed to np.random.choice in the misclassification branch. -/
def priorityClasses : List String := ["HIGH", "MEDIUM", "NORMAL"]

/-- PartialAutomationBaseline.classify_priority.  `randDraw` models the
np.random.random() draw: the code takes the correct branch when the draw is
strictly greater than 0.15 (hard-coded 85 percent accuracy).  `choiceIdx`
models the index drawn by np.random.choice over `priorityClasses` in the
misclassification branch. -/
def classify_priority (age : Nat) (diagnosis : String) (randDraw : ℚ) (choiceIdx : Nat) : String :=
  if randDraw > 3/20 then classify_priority_rule age diagnosis
  else priorityClasses.getD choiceIdx "HIGH"

/-! ## baseline_fifo.py: triage_patient -/

/-- The urgent keyword list of FIFOBaseline.triage_patient. -/
def fifoUrgentKeywords : List String := ["cancer", "acute", "emergency", "critical"]

/-- FIFOBaseline.triage_patient: keyword triage over the diagnosis, returning
the priority class used by the FIFO baseline. -/
def triage_patient (diagnosis : String) : String :=
  if fifoUrgentKeywords.any (fun kw => containsLower diagnosis kw) then "urgent"
  else "normal"

/-! ## simulation_engine.py: generate_delay and parameter tables -/

/-- Oracle for simulation_engine.generate_delay.  `normalDraw mean sigma`
stands for np.random.normal(mean, sigma); `lognormalDraw mean sigma` stands
for np.random.lognormal(mu, s) where mu and s are the location/scale obtained
inside generate_delay by converting the target arithmetic mean/sigma (the
transcendental conversion is folded into the oracle, keeping the model
executable). -/
structure EngineOracle where
  normalDraw : ℚ → ℚ → ℚ
  lognormalDraw : ℚ → ℚ → ℚ

/-- simulation_engine.generate_delay: Normal family for mean < 1.0, Lognormal
family otherwise, with a 0.01 minimum floor applied to the sampled value. -/
def generate_delay (o : EngineOracle) (mean sigma : ℚ) : ℚ :=
  max (1/100) (if mean < 1 then o.normalDraw mean sigma else o.lognormalDraw mean sigma)

/-- ORCHESTRATOR_PARAMS from simulation_engine.py as (stage, mean, sigma). -/
def ORCHESTRATOR_PARAMS : List (String × ℚ × ℚ) :=
  [("radiologist_report", 4, 1/2), ("pcp_ack", 2, 1/5), ("referral_gen", 1/20, 1/100),
   ("prior_auth_prep", 1/10, 1/100), ("payer_decision", 120, 2/5), ("scheduling", 24, 4)]

/-- LEGACY_PARAMS from simulation_engine.py as (stage, mean, sigma). -/
def LEGACY_PARAMS : List (String × ℚ × ℚ) :=
  [("radiologist_report", 4, 1/2), ("pcp_ack", 48, 1), ("referral_gen", 72, 4/5),
   ("prior_auth_prep", 96, 1/2), ("payer_decision", 120, 2/5), ("scheduling", 168, 3/5)]

/-- A concrete engine oracle used by witnesses. -/
def engOracle0 : EngineOracle := ⟨fun _ _ => 0, fun _ _ => 7⟩

/-! ## Executable rational numbers for the simulation state

Virtual times and durations are rationals.  The simulation state is meant to
be evaluated on concrete inputs inside proofs, and the kernel cannot reduce
the normalising arithmetic of `Rat` (its gcd is defined by well-founded
recursion); so the model carries its own rational scalar `MRat`: a quotient
of unnormalised integer fractions with a positive denominator, whose
operations reduce by plain integer arithmetic.  The map `MRat.toRat` into ℚ
is injective and commutes with all operations, so every algebraic fact about
`MRat` is proved by transferring it to ℚ.
-/

/-- An unnormalised fraction: numerator `num` and denominator `pden + 1`. -/
structure PreQ where
  num : Int
  pden : Nat
deriving DecidableEq

/-- The (always positive) denominator. -/
def PreQ.den (p : PreQ) : Int := (p.pden : Int) + 1

theorem PreQ.den_pos (p : PreQ) : 0 < p.den := by
  unfold PreQ.den
  omega

/-- The rational value of a fraction. -/
def preToRat (p : PreQ) : ℚ := (p.num : ℚ) / (p.den : ℚ)

theorem preQ_den_ne (p : PreQ) : ((p.den : ℚ)) ≠ 0 := by
  have h := p.den_pos
  exact_mod_cast (by exact_mod_cast h : (0:ℚ) < (p.den : ℚ)).ne.symm

/-- Cross-multiplication equality, the setoid relation. -/
def preQequiv (a b : PreQ) : Prop := a.num * b.den = b.num * a.den

theorem preQequiv_iff (a b : PreQ) : preQequiv a b ↔ preToRat a = preToRat b := by
  unfold preQequiv preToRat
  rw [div_eq_div_iff (preQ_den_ne a) (preQ_den_ne b)]
  constructor
  · intro h; exact_mod_cast congrArg (fun z : Int => (z : ℚ)) h
  · intro h; exact_mod_cast h

instance preQSetoid : Setoid PreQ where
  r := preQequiv
  iseqv := by
    refine ⟨fun a => rfl, fun {a b} h => ?_, fun {a b c} h1 h2 => ?_⟩
    · rw [preQequiv_iff] at h ⊢; exact h.symm
    · rw [preQequiv_iff] at h1 h2 ⊢; exact h1.trans h2

/-- The model rationals: unnormalised fractions up to cross-multiplication. -/
def MRat := Quotient preQSetoid

namespace MRat

/-- Build a model rational from an integer numerator and positive
denominator offset. -/
def mk (n : Int) (pd : Nat) : MRat := Quotient.mk preQSetoid ⟨n, pd⟩

/-- The rational value. -/
def toRat (a : MRat) : ℚ :=
  Quotient.liftOn a preToRat (fun _ _ h => (preQequiv_iff _ _).mp h)

theorem toRat_mk (n : Int) (pd : Nat) : toRat (mk n pd) = (n : ℚ) / ((pd : ℚ) + 1) := by
  show preToRat ⟨n, pd⟩ = _
  unfold preToRat PreQ.den
  norm_num

theorem toRat_inj {a b : MRat} (h : toRat a = toRat b) : a = b := by
  induction a using Quotient.ind
  induction b using Quotient.ind
  exact Quotient.sound ((preQequiv_iff _ _).mpr h)

theorem eq_iff (a b : MRat) : a = b ↔ toRat a = toRat b :=
  ⟨fun h => h ▸ rfl, toRat_inj⟩

end MRat

/-- Fraction addition (no normalisation). -/
def preAdd (p q : PreQ) : PreQ :=
  ⟨p.num * q.den + q.num * p.den, (p.pden + 1) * (q.pden + 1) - 1⟩

theorem preAdd_den (p q : PreQ) : (preAdd p q).den = p.den * q.den := by
  unfold preAdd PreQ.den
  have h1 : 1 ≤ (p.pden + 1) * (q.pden + 1) := Nat.one_le_iff_ne_zero.mpr (by positivity)
  rw [Int.ofNat_sub h1]
  push_cast
  ring

theorem preToRat_preAdd (p q : PreQ) :
    preToRat (preAdd p q) = preToRat p + preToRat q := by
  unfold preToRat
  rw [preAdd_den]
  show ((p.num * q.den + q.num * p.den : Int) : ℚ) / _ = _
  have hp := preQ_den_ne p
  have hq := preQ_den_ne q
  push_cast
  field_simp

/-- Fraction multiplication (no normalisation). -/
def preMul (p q : PreQ) : PreQ :=
  ⟨p.num * q.num, (p.pden + 1) * (q.pden + 1) - 1⟩

theorem preMul_den (p q : PreQ) : (preMul p q).den = p.den * q.den := by
  unfold preMul PreQ.den
  have h1 : 1 ≤ (p.pden + 1) * (q.pden + 1) := Nat.one_le_iff_ne_zero.mpr (by positivity)
  rw [Int.ofNat_sub h1]
  push_cast
  ring

theorem preToRat_preMul (p q : PreQ) :
    preToRat (preMul p q) = preToRat p * preToRat q := by
  unfold preToRat
  rw [preMul_den]
  show ((p.num * q.num : Int) : ℚ) / _ = _
  push_cast [div_mul_div_comm]
  ring

/-- Fraction negation. -/
def preNeg (p : PreQ) : PreQ := ⟨-p.num, p.pden⟩

theorem preToRat_preNeg (p : PreQ) : preToRat (preNeg p) = -preToRat p := by
  unfold preToRat preNeg PreQ.den
  push_cast [neg_div]
  ring

/-- Fraction reciprocal (zero maps to zero). -/
def preInv (p : PreQ) : PreQ :=
  if 0 < p.num then ⟨p.den, p.num.toNat - 1⟩
  else if p.num < 0 then ⟨-p.den, (-p.num).toNat - 1⟩
  else ⟨0, 0⟩

theorem preInv_den (p : PreQ) :
    (0 < p.num → (preInv p).den = p.num) ∧ (p.num < 0 → (preInv p).den = -p.num) := by
  unfold preInv PreQ.den
  constructor
  · intro h
    rw [if_pos h]
    have h1 : 1 ≤ p.num.toNat := by omega
    push_cast [Nat.sub_add_cancel h1]
    omega
  · intro h
    rw [if_neg (by omega), if_pos h]
    have h1 : 1 ≤ (-p.num).toNat := by omega
    push_cast [Nat.sub_add_cancel h1]
    omega

theorem preToRat_preInv (p : PreQ) : preToRat (preInv p) = (preToRat p)⁻¹ := by
  rcases lt_trichotomy p.num 0 with h | h | h
  · have hden : (preInv p).den = -p.num := (preInv_den p).2 h
    have hnum : (preInv p).num = -p.den := by unfold preInv; rw [if_neg (by omega), if_pos h]
    unfold preToRat
    rw [hden, hnum, inv_div]
    push_cast
    rw [neg_div_neg_eq]
  · have h0 : preInv p = ⟨0, 0⟩ := by unfold preInv; rw [if_neg (by omega), if_neg (by omega)]
    unfold preToRat
    rw [h0, h]
    simp [PreQ.den]
  · have hden : (preInv p).den = p.num := (preInv_den p).1 h
    have hnum : (preInv p).num = p.den := by unfold preInv; rw [if_pos h]
    unfold preToRat
    rw [hden, hnum, inv_div]

/-- Fraction order: cross-multiplication against the positive denominators. -/
def preLe (p q : PreQ) : Prop := p.num * q.den ≤ q.num * p.den

/-- Strict fraction order. -/
def preLt (p q : PreQ) : Prop := p.num * q.den < q.num * p.den

theorem preLe_iff (p q : PreQ) : preLe p q ↔ preToRat p ≤ preToRat q := by
  unfold preLe preToRat
  rw [div_le_div_iff₀ (by exact_mod_cast p.den_pos) (by exact_mod_cast q.den_pos)]
  constructor
  · intro h; exact_mod_cast h
  · intro h; exact_mod_cast h

theorem preLt_iff (p q : PreQ) : preLt p q ↔ preToRat p < preToRat q := by
  unfold preLt preToRat
  rw [div_lt_div_iff₀ (by exact_mod_cast p.den_pos) (by exact_mod_cast q.den_pos)]
  constructor
  · intro h; exact_mod_cast h
  · intro h; exact_mod_cast h

instance (p q : PreQ) : Decidable (preQequiv p q) := by
  unfold preQequiv; infer_instance

instance (p q : PreQ) : Decidable (preLe p q) := by
  unfold preLe; infer_instance

instance (p q : PreQ) : Decidable (preLt p q) := by
  unfold preLt; infer_instance

namespace MRat

/-- Lift a binary fraction operation that commutes with `preToRat`. -/
def lift2 (f : PreQ → PreQ → PreQ) (g : ℚ → ℚ → ℚ)
    (hf : ∀ p q, preToRat (f p q) = g (preToRat p) (preToRat q)) (a b : MRat) : MRat :=
  Quotient.liftOn₂ a b (fun p q => Quotient.mk preQSetoid (f p q))
    (fun p q p' q' hp hq => Quotient.sound (by
      show preQequiv (f p q) (f p' q')
      rw [preQequiv_iff, hf, hf, (preQequiv_iff p p').mp hp, (preQequiv_iff q q').mp hq]))

instance : Add MRat :=
  ⟨lift2 preAdd (· + ·) preToRat_preAdd⟩

instance : Mul MRat :=
  ⟨lift2 preMul (· * ·) preToRat_preMul⟩

instance : Neg MRat :=
  ⟨fun a => Quotient.liftOn a (fun p => Quotient.mk preQSetoid (preNeg p))
    (fun p p' hp => Quotient.sound (by
      show preQequiv (preNeg p) (preNeg p')
      rw [preQequiv_iff, preToRat_preNeg, preToRat_preNeg, (preQequiv_iff p p').mp hp]))⟩

instance : Inv MRat :=
  ⟨fun a => Quotient.liftOn a (fun p => Quotient.mk preQSetoid (preInv p))
    (fun p p' hp => Quotient.sound (by
      show preQequiv (preInv p) (preInv p')
      rw [preQequiv_iff, preToRat_preInv, preToRat_preInv, (preQequiv_iff p p').mp hp]))⟩

instance : Sub MRat := ⟨fun a b => a + -b⟩

instance : Div MRat := ⟨fun a b => a * b⁻¹⟩

instance : LE MRat :=
  ⟨fun a b => Quotient.liftOn₂ a b preLe (fun p q p' q' hp hq => propext (by
    rw [preLe_iff, preLe_iff, (preQequiv_iff p p').mp hp, (preQequiv_iff q q').mp hq]))⟩

instance : LT MRat :=
  ⟨fun a b => Quotient.liftOn₂ a b preLt (fun p q p' q' hp hq => propext (by
    rw [preLt_iff, preLt_iff, (preQequiv_iff p p').mp hp, (preQequiv_iff q q').mp hq]))⟩

instance (n : Nat) : OfNat MRat n := ⟨mk n 0⟩

instance : NatCast MRat := ⟨fun n => mk n 0⟩

instance : DecidableEq MRat := fun a b =>
  Quotient.recOnSubsingleton₂ a b fun p q =>
    decidable_of_iff (preQequiv p q)
      (Iff.intro (fun h => Quotient.sound h) (fun h => Quotient.exact h))

instance decidableLE (a b : MRat) : Decidable (a ≤ b) :=
  Quotient.recOnSubsingleton₂ a b fun p q =>
    inferInstanceAs (Decidable (preLe p q))

instance decidableLT (a b : MRat) : Decidable (a < b) :=
  Quotient.recOnSubsingleton₂ a b fun p q =>
    inferInstanceAs (Decidable (preLt p q))

instance : Max MRat := ⟨fun a b => if a ≤ b then b else a⟩

instance : Inhabited MRat := ⟨mk 0 0⟩

/-! Transfer lemmas: `toRat` commutes with every operation, so algebraic
facts about `MRat` reduce to facts about ℚ. -/

theorem toRat_add (a b : MRat) : toRat (a + b) = toRat a + toRat b := by
  induction a using Quotient.ind
  induction b using Quotient.ind
  exact preToRat_preAdd _ _

theorem toRat_mul (a b : MRat) : toRat (a * b) = toRat a * toRat b := by
  induction a using Quotient.ind
  induction b using Quotient.ind
  exact preToRat_preMul _ _

theorem toRat_neg (a : MRat) : toRat (-a) = -toRat a := by
  induction a using Quotient.ind
  exact preToRat_preNeg _

theorem toRat_inv (a : MRat) : toRat a⁻¹ = (toRat a)⁻¹ := by
  induction a using Quotient.ind
  exact preToRat_preInv _

theorem toRat_sub (a b : MRat) : toRat (a - b) = toRat a - toRat b := by
  show toRat (a + -b) = _
  rw [toRat_add, toRat_neg]
  ring

theorem toRat_div (a b : MRat) : toRat (a / b) = toRat a / toRat b := by
  show toRat (a * b⁻¹) = _
  rw [toRat_mul, toRat_inv]
  rw [div_eq_mul_inv]

theorem le_def (a b : MRat) : a ≤ b ↔ toRat a ≤ toRat b := by
  induction a using Quotient.ind
  induction b using Quotient.ind
  exact preLe_iff _ _

theorem lt_def (a b : MRat) : a < b ↔ toRat a < toRat b := by
  induction a using Quotient.ind
  induction b using Quotient.ind
  exact preLt_iff _ _

theorem toRat_ofNat (n : Nat) : toRat (OfNat.ofNat n) = (n : ℚ) := by
  show toRat (mk n 0) = _
  rw [toRat_mk]
  norm_num

theorem toRat_natCast (n : Nat) : toRat (Nat.cast n) = (n : ℚ) := toRat_ofNat n

theorem toRat_zero : toRat 0 = 0 := by rw [toRat_ofNat 0]; norm_num

theorem toRat_one : toRat 1 = 1 := by rw [toRat_ofNat 1]; norm_num

theorem toRat_max (a b : MRat) : toRat (max a b) = max (toRat a) (toRat b) := by
  show toRat (if a ≤ b then b else a) = _
  split
  · next h => rw [le_def] at h; exact (max_eq_right h).symm
  · next h => rw [le_def, not_le] at h; exact (max_eq_left h.le).symm

theorem toRat_listSum (l : List MRat) : toRat l.sum = (l.map toRat).sum := by
  induction l with
  | nil => exact toRat_zero
  | cons x xs ih => rw [List.sum_cons, List.map_cons, List.sum_cons, toRat_add, ih]

end MRat

/-! ## baseline_fifo.py: the FIFO-baseline discrete-event simulation

The simpy kernel pops the pending event with the least (time, event id) key,
advances virtual time to that event, and runs the resumed process until its
next suspension (a timeout or a blocked resource request).  simpy.Resource is
a plain capacity-bounded FIFO resource: a request is granted immediately when
the pool has a free unit and no earlier waiter, otherwise it joins the tail
of the wait queue; a release hands the freed unit to the head of the wait
queue at the current virtual time.  The per-case coordination process of
FIFOBaseline.coordinate_patient walks the seven stages sequentially; stages 0
(radiology_report) and 5 (specialist_scheduling) hold a resource unit for the
duration of the stage, all other stages are plain timeouts.
-/

/-- Error raised by a numpy sampling routine on parameters outside its
domain (the repository performs no validation of its own, so these are the
only failures a run can produce). -/
inductive NpError where
  | valueError (msg : String)
deriving DecidableEq

/-- Draw oracle for the FIFO baseline: the k-th numpy sampling call of a run
returns the oracle value at draw index k.  Each field models one numpy
routine (after the parameter-domain check); `choiceDraw k n` models the index
drawn by np.random.choice over n options. -/
structure Oracle where
  uniformDraw : Nat → MRat → MRat → MRat
  exponentialDraw : Nat → MRat → MRat
  normalDraw : Nat → MRat → MRat → MRat
  gammaDraw : Nat → MRat → MRat → MRat
  triangularDraw : Nat → MRat → MRat → MRat → MRat
  weibullDraw : Nat → MRat → MRat
  randomDraw : Nat → MRat
  choiceDraw : Nat → Nat → Nat

/-- np.random.uniform(lo, hi): numpy performs no parameter check here. -/
def npUniform (o : Oracle) (k : Nat) (lo hi : MRat) : Except NpError MRat :=
  .ok (o.uniformDraw k lo hi)

/-- np.random.exponential(scale): rejects a negative scale. -/
def npExponential (o : Oracle) (k : Nat) (scale : MRat) : Except NpError MRat :=
  if scale < 0 then .error (.valueError "scale < 0") else .ok (o.exponentialDraw k scale)

/-- np.random.normal(loc, scale): rejects a negative scale. -/
def npNormal (o : Oracle) (k : Nat) (loc scale : MRat) : Except NpError MRat :=
  if scale < 0 then .error (.valueError "scale < 0") else .ok (o.normalDraw k loc scale)

/-- np.random.gamma(shape, scale): rejects negative shape or scale. -/
def npGamma (o : Oracle) (k : Nat) (shape scale : MRat) : Except NpError MRat :=
  if shape < 0 then .error (.valueError "shape < 0")
  else if scale < 0 then .error (.valueError "scale < 0")
  else .ok (o.gammaDraw k shape scale)

/-- np.random.triangular(left, mode, right): rejects left > mode,
mode > right and left = right. -/
def npTriangular (o : Oracle) (k : Nat) (left mode right : MRat) : Except NpError MRat :=
  if mode < left then .error (.valueError "left > mode")
  else if right < mode then .error (.valueError "mode > right")
  else if left = right then .error (.valueError "left == right")
  else .ok (o.triangularDraw k left mode right)

/-- np.random.weibull(a): rejects a negative shape. -/
def npWeibull (o : Oracle) (k : Nat) (a : MRat) : Except NpError MRat :=
  if a < 0 then .error (.valueError "a < 0") else .ok (o.weibullDraw k a)

/-- np.random.random(): a plain draw, no parameters. -/
def npRandom (o : Oracle) (k : Nat) : MRat := o.randomDraw k

/-- The YAML configuration record consumed by FIFOBaseline (the fields read
by the seven stage processes and the two resource capacities; the
`config.get(..., default)` capacity defaults are resolved by the caller). -/
structure FifoConfig where
  radMin : MRat
  radMax : MRat
  pcpLambda : MRat
  refMean : MRat
  refStd : MRat
  paShape : MRat
  paScale : MRat
  payMin : MRat
  payMode : MRat
  payMax : MRat
  schedShape : MRat
  schedScale : MRat
  noShowProb : MRat
  reschedMin : MRat
  reschedMax : MRat
  radCap : Nat
  specCap : Nat
deriving DecidableEq

/-- Stage names in execution order, as the stage_times keys written by the
seven process_* methods. -/
def stageName : Nat → String
  | 0 => "radiology_report"
  | 1 => "pcp_acknowledgment"
  | 2 => "referral_processing"
  | 3 => "prior_authorization"
  | 4 => "payer_review"
  | 5 => "specialist_scheduling"
  | 6 => "patient_confirmation"
  | _ => ""

/-- One stage-duration sample, exactly as the corresponding process_* method
draws it (units and post-processing included), together with the advanced
draw counter.  Stage 6 consumes one draw on the confirmed branch and two on
the no-show branch. -/
def sampleStage (c : FifoConfig) (o : Oracle) (ctr k : Nat) : Except NpError MRat × Nat :=
  if k = 0 then ((npUniform o ctr c.radMin c.radMax).map (fun v => v / 24), ctr + 1)
  else if k = 1 then (npExponential o ctr (1 / c.pcpLambda), ctr + 1)
  else if k = 2 then ((npNormal o ctr c.refMean c.refStd).map (fun v => max (1/2) v), ctr + 1)
  else if k = 3 then (npGamma o ctr c.paShape c.paScale, ctr + 1)
  else if k = 4 then (npTriangular o ctr c.payMin c.payMode c.payMax, ctr + 1)
  else if k = 5 then ((npWeibull o ctr c.schedShape).map (fun v => c.schedScale * v), ctr + 1)
  else if npRandom o ctr < c.noShowProb then
    (npUniform o (ctr + 1) c.reschedMin c.reschedMax, ctr + 2)
  else (.ok (1/2), ctr + 1)

/-- Coordination-process control state of one case (spec section 4.5): not
yet started, queued on a resource before stage k, granted a unit and about to
sample stage k, inside the stage-k timeout of sampled duration d, or
completed. -/
inductive Phase where
  | idle
  | waiting (k : Nat)
  | granted (k : Nat)
  | inService (k : Nat) (d : MRat)
  | done
deriving DecidableEq, Inhabited

/-- Model of the Patient dataclass, extended with the bookkeeping the claims
speak about: `startTime` is env.now when coordinate_patient begins,
`waitAccum` the accumulated resource-queue waiting time, `reqTime` the
virtual time of the pending resource request while queued, `finishTime` the
completion instant. -/
structure MPatient where
  urgentIndicator : Bool
  diagnosis : String
  stageTimes : List (String × MRat)
  totalLatency : MRat
  startTime : MRat
  waitAccum : MRat
  reqTime : MRat
  finishTime : MRat
  phase : Phase
deriving DecidableEq, Inhabited

/-- Scheduler event payload: start the case process, resume it after a
resource grant, or fire its pending timeout. -/
inductive EvTag where
  | start (pid : Nat)
  | resume (pid : Nat)
  | fire (pid : Nat)
deriving DecidableEq

/-- A pending scheduler event: virtual time, creation sequence id (the simpy
event id used as tie-break), and payload. -/
structure Ev where
  time : MRat
  seq : Nat
  tag : EvTag
deriving DecidableEq

/-- The case a scheduler event belongs to. -/
def evPid (e : Ev) : Nat :=
  match e.tag with
  | .start p => p
  | .resume p => p
  | .fire p => p

/-- Whole-run state: virtual clock, pending events, fresh event id, draw
counter, cohort, the two resource pools (holder list and FIFO wait queue),
the completed-case ledger (pids in append order), a ghost grant log
((time, pool-is-radiology, pid) per grant), and the pending numpy error. -/
structure SimState where
  now : MRat
  queue : List Ev
  nextSeq : Nat
  drawCtr : Nat
  nPat : Nat
  pats : List MPatient
  radHolders : List Nat
  radQueue : List Nat
  specHolders : List Nat
  specQueue : List Nat
  ledger : List Nat
  grantLog : List (MRat × Bool × Nat)
  err : Option NpError
deriving DecidableEq

/-- Read one patient record (out-of-range indices yield the default record,
never reached on well-formed states). -/
def getPat (s : SimState) (i : Nat) : MPatient := s.pats.getD i default

/-- Replace one patient record. -/
def setPat (s : SimState) (i : Nat) (p : MPatient) : SimState :=
  { s with pats := s.pats.set i p }

/-- Append a scheduler event with a fresh sequence id. -/
def pushEv (s : SimState) (t : MRat) (tag : EvTag) : SimState :=
  { s with queue := s.queue ++ [⟨t, s.nextSeq, tag⟩], nextSeq := s.nextSeq + 1 }

/-- Sample the duration of stage k for case i at the current instant and
schedule the corresponding timeout; a numpy domain error halts the run. -/
def sampleAndSchedule (c : FifoConfig) (o : Oracle) (s : SimState) (i k : Nat) : SimState :=
  match sampleStage c o s.drawCtr k with
  | (.error e, ctr) => { s with err := some e, drawCtr := ctr }
  | (.ok d, ctr) =>
      let s1 := { s with drawCtr := ctr }
      let s2 := setPat s1 i { getPat s1 i with phase := .inService k d }
      pushEv s2 (s2.now + d) (.fire i)

/-- simpy.Resource.request for case i entering the radiology stage (stage 0,
process_radiology_report): grant immediately when a unit is free and nobody
is queued ahead, otherwise join the tail of the FIFO wait queue. -/
def tryAcquireRad (c : FifoConfig) (o : Oracle) (s : SimState) (i : Nat) : SimState :=
  if s.radQueue = [] ∧ s.radHolders.length < c.radCap then
    sampleAndSchedule c o
      { s with radHolders := s.radHolders ++ [i],
               grantLog := s.grantLog ++ [(s.now, true, i)] } i 0
  else
    setPat { s with radQueue := s.radQueue ++ [i] } i
      { getPat s i with phase := .waiting 0, reqTime := s.now }

/-- simpy.Resource.request for case i entering the specialist stage (stage 5,
process_specialist_scheduling). -/
def tryAcquireSpec (c : FifoConfig) (o : Oracle) (s : SimState) (i : Nat) : SimState :=
  if s.specQueue = [] ∧ s.specHolders.length < c.specCap then
    sampleAndSchedule c o
      { s with specHolders := s.specHolders ++ [i],
               grantLog := s.grantLog ++ [(s.now, false, i)] } i 5
  else
    setPat { s with specQueue := s.specQueue ++ [i] } i
      { getPat s i with phase := .waiting 5, reqTime := s.now }

/-- Enter stage k for case i: stages 0 and 5 must acquire their resource
first, the other stages sample and schedule directly. -/
def enterStage (c : FifoConfig) (o : Oracle) (s : SimState) (i k : Nat) : SimState :=
  if k = 0 then tryAcquireRad c o s i
  else if k = 5 then tryAcquireSpec c o s i
  else sampleAndSchedule c o s i k

/-- simpy.Resource.release by case i on the radiology pool: drop the freed
unit and, when a waiter is queued and capacity is now free, grant the unit to
the head of the FIFO queue, accumulate its waiting time, and schedule its
resumption at the current instant. -/
def releaseRad (c : FifoConfig) (s : SimState) (i : Nat) : SimState :=
  match s.radQueue with
  | [] => { s with radHolders := s.radHolders.erase i }
  | w :: rest =>
    if (s.radHolders.erase i).length < c.radCap then
      pushEv
        (setPat
          { s with radHolders := s.radHolders.erase i ++ [w], radQueue := rest,
                   grantLog := s.grantLog ++ [(s.now, true, w)] }
          w
          { getPat s w with
              waitAccum := (getPat s w).waitAccum + (s.now - (getPat s w).reqTime),
              phase := Phase.granted 0 })
        s.now (.resume w)
    else { s with radHolders := s.radHolders.erase i }

/-- simpy.Resource.release by case i on the specialist pool. -/
def releaseSpec (c : FifoConfig) (s : SimState) (i : Nat) : SimState :=
  match s.specQueue with
  | [] => { s with specHolders := s.specHolders.erase i }
  | w :: rest =>
    if (s.specHolders.erase i).length < c.specCap then
      pushEv
        (setPat
          { s with specHolders := s.specHolders.erase i ++ [w], specQueue := rest,
                   grantLog := s.grantLog ++ [(s.now, false, w)] }
          w
          { getPat s w with
              waitAccum := (getPat s w).waitAccum + (s.now - (getPat s w).reqTime),
              phase := Phase.granted 5 })
        s.now (.resume w)
    else { s with specHolders := s.specHolders.erase i }

/-- Record the sampled duration of the finished stage k in the stage_times
map of case i (the assignment after each yield env.timeout). -/
def recordStage (s : SimState) (i k : Nat) (d : MRat) : SimState :=
  setPat s i { getPat s i with stageTimes := (getPat s i).stageTimes ++ [(stageName k, d)] }

/-- Finalize case i at the end of coordinate_patient: total_latency is
env.now - start_time and the case is appended to completed_patients. -/
def finishCase (s : SimState) (i : Nat) : SimState :=
  { (setPat s i
      { getPat s i with
          totalLatency := s.now - (getPat s i).startTime,
          finishTime := s.now, phase := Phase.done }) with
    ledger := s.ledger ++ [i] }

/-- Timeout expiry of stage k for case i: record the stage duration, release
the stage resource if any, then either finalize the case (stage 6) or enter
the next stage. -/
def fireStep (c : FifoConfig) (o : Oracle) (s : SimState) (i k : Nat) (d : MRat) : SimState :=
  if k = 6 then finishCase (recordStage s i k d) i
  else if k = 0 then enterStage c o (releaseRad c (recordStage s i k d) i) i (k + 1)
  else if k = 5 then enterStage c o (releaseSpec c (recordStage s i k d) i) i (k + 1)
  else enterStage c o (recordStage s i k d) i (k + 1)

/-- Run the continuation of one popped event (the popped event has already
been removed from the queue and the clock advanced to its time). -/
def exec (c : FifoConfig) (o : Oracle) (s : SimState) (e : Ev) : SimState :=
  match e.tag with
  | .start i =>
      match (getPat s i).phase with
      | .idle => enterStage c o (setPat s i { getPat s i with startTime := s.now }) i 0
      | _ => s
  | .resume i =>
      match (getPat s i).phase with
      | .granted k => sampleAndSchedule c o s i k
      | _ => s
  | .fire i =>
      match (getPat s i).phase with
      | .inService k d => fireStep c o s i k d
      | _ => s

/-- Boolean event ordering key: earlier virtual time first, ties broken by
the smaller creation sequence id (the simpy heap order). -/
def evLeB (a b : Ev) : Bool :=
  decide (a.time < b.time) || (decide (a.time = b.time) && decide (a.seq ≤ b.seq))

/-- The pending event with the least (time, seq) key. -/
def minEv : List Ev → Option Ev
  | [] => none
  | e :: rest =>
      match minEv rest with
      | none => some e
      | some m => some (if evLeB e m then e else m)

/-- One scheduler step: pop the least-key pending event, advance the clock to
its time, and run its continuation.  A halted run (numpy error) or an empty
event queue has no step. -/
def step (c : FifoConfig) (o : Oracle) (s : SimState) : Option SimState :=
  if s.err.isSome then none
  else
    match minEv s.queue with
    | none => none
    | some e => some (exec c o { s with queue := s.queue.erase e, now := e.time } e)

/-- Run up to n scheduler steps (the run stops by itself when no events are
pending). -/
def runN (c : FifoConfig) (o : Oracle) : Nat → SimState → SimState
  | 0, s => s
  | n + 1, s =>
      match step c o s with
      | none => s
      | some s1 => runN c o n s1

/-- The diagnosis list of the cohort generator in run_fifo_baseline. -/
def fifoDiagnoses : List String :=
  ["diabetes", "hypertension", "acute coronary syndrome", "cancer staging",
   "chronic kidney disease"]

/-- One generated patient of run_fifo_baseline: the cohort loop draws
np.random.random() for urgent_indicator (15 percent) and np.random.choice
over the diagnosis list, consuming draw indices 2i and 2i+1. -/
def mkPatient (o : Oracle) (i : Nat) : MPatient :=
  { urgentIndicator := npRandom o (2 * i) < 3/20
    diagnosis := fifoDiagnoses.getD (o.choiceDraw (2 * i + 1) fifoDiagnoses.length) "diabetes"
    stageTimes := []
    totalLatency := 0
    startTime := 0
    waitAccum := 0
    reqTime := 0
    finishTime := 0
    phase := .idle }

/-- Initial run state of run_fifo_baseline / FIFOBaseline.run_simulation for
n cases: fresh pools, and one start event per case staggered by the fixed
0.01 inter-arrival offset of patient_arrival_generator.  The sim draw counter
starts after the 2n cohort draws. -/
def initState (n : Nat) (o : Oracle) : SimState :=
  { now := 0
    queue := (List.range n).map (fun i => ⟨(Nat.cast i : MRat) / 100, i, EvTag.start i⟩)
    nextSeq := n
    drawCtr := 2 * n
    nPat := n
    pats := (List.range n).map (fun i => mkPatient o i)
    radHolders := []
    radQueue := []
    specHolders := []
    specQueue := []
    ledger := []
    grantLog := []
    err := none }

/-- Sum of the recorded stage durations of a case (the values of its
stage_times map). -/
def sumDur (p : MPatient) : MRat := (p.stageTimes.map Prod.snd).sum

/-- The pending events belonging to case i. -/
def evsFor (i : Nat) (q : List Ev) : List Ev := q.filter (fun e => evPid e == i)

/-- Relational scheduler step (spec section 4.1): some pending event minimal
for the (time, seq) order is popped, the clock advances to its time, and its
continuation runs.  `step` implements one choice of minimal event; the
determinism theorem shows the choice is unique. -/
def StepRel (c : FifoConfig) (o : Oracle) (s s' : SimState) : Prop :=
  s.err = none ∧ ∃ e, e ∈ s.queue ∧ (∀ x ∈ s.queue, evLeB e x = true) ∧
    s' = exec c o { s with queue := s.queue.erase e, now := e.time } e

/-- Reachability along scheduler steps. -/
def Reach (c : FifoConfig) (o : Oracle) : SimState → SimState → Prop :=
  Relation.ReflTransGen (StepRel c o)

/-- A state from which no scheduler step exists (the run is over, either
because no events are pending or because a numpy error halted it). -/
def Terminal (c : FifoConfig) (o : Oracle) (s : SimState) : Prop :=
  ∀ s', ¬ StepRel c o s s'

/-- The numpy parameter domain for every distribution the FIFO baseline
samples: positive pcp rate (its reciprocal is the exponential scale),
non-negative normal scale, gamma shape/scale and Weibull shape, and a
non-degenerate ordered triangular triple. -/
def ValidFifoConfig (c : FifoConfig) : Prop :=
  0 < c.pcpLambda ∧ 0 ≤ c.refStd ∧ 0 ≤ c.paShape ∧ 0 ≤ c.paScale ∧
  c.payMin ≤ c.payMode ∧ c.payMode ≤ c.payMax ∧ c.payMin ≠ c.payMax ∧ 0 ≤ c.schedShape

instance (c : FifoConfig) : Decidable (ValidFifoConfig c) := by
  unfold ValidFifoConfig; infer_instance

/-- The oracle draws lie in the non-negative part of each distribution
support (normal draws are unconstrained: the referral stage floors them at
0.5 itself, and random draws only steer branches). -/
def NonnegOracle (o : Oracle) : Prop :=
  (∀ k lo hi, 0 ≤ o.uniformDraw k lo hi) ∧ (∀ k sc, 0 ≤ o.exponentialDraw k sc) ∧
  (∀ k sh sc, 0 ≤ o.gammaDraw k sh sc) ∧ (∀ k l m r, 0 ≤ o.triangularDraw k l m r) ∧
  (∀ k a, 0 ≤ o.weibullDraw k a)

/-- Per-case accounting invariant: in every control phase, the case record
and its unique pending event agree with the latency accounting
(request instant, resumption instant, timeout expiry, or final latency all
equal start time plus accumulated waiting plus recorded stage durations). -/
def patInv (s : SimState) (i : Nat) : Prop :=
  match (getPat s i).phase with
  | .idle => (getPat s i).stageTimes = [] ∧ (getPat s i).waitAccum = 0 ∧
      ∃ t sq, evsFor i s.queue = [⟨t, sq, EvTag.start i⟩]
  | .waiting k => evsFor i s.queue = [] ∧
      (getPat s i).reqTime = (getPat s i).startTime + (getPat s i).waitAccum + sumDur (getPat s i) ∧
      ((k = 0 ∧ i ∈ s.radQueue) ∨ (k = 5 ∧ i ∈ s.specQueue))
  | .granted _ => ∃ sq, evsFor i s.queue =
      [⟨(getPat s i).startTime + (getPat s i).waitAccum + sumDur (getPat s i), sq, EvTag.resume i⟩]
  | .inService _ d => ∃ sq, evsFor i s.queue =
      [⟨(getPat s i).startTime + (getPat s i).waitAccum + sumDur (getPat s i) + d, sq, EvTag.fire i⟩]
  | .done => evsFor i s.queue = [] ∧
      (getPat s i).totalLatency = (getPat s i).waitAccum + sumDur (getPat s i)

/-- The inductive run invariant: distinct event ids bounded by the fresh id,
event pids in range, holder counts within capacity, well-formed FIFO wait
queues holding exactly the waiting cases, a ledger of completed cases, and
the per-case accounting invariant (on non-halted states). -/
structure SimInv (c : FifoConfig) (s : SimState) : Prop where
  patsLen : s.pats.length = s.nPat
  seqNodup : (s.queue.map Ev.seq).Nodup
  seqBound : ∀ e ∈ s.queue, e.seq < s.nextSeq
  pidBound : ∀ e ∈ s.queue, evPid e < s.nPat
  radCapB : s.radHolders.length ≤ c.radCap
  specCapB : s.specHolders.length ≤ c.specCap
  radNodup : s.radQueue.Nodup
  specNodup : s.specQueue.Nodup
  radPhase : ∀ i ∈ s.radQueue, (getPat s i).phase = .waiting 0
  specPhase : ∀ i ∈ s.specQueue, (getPat s i).phase = .waiting 5
  radBound : ∀ i ∈ s.radQueue, i < s.nPat
  specBound : ∀ i ∈ s.specQueue, i < s.nPat
  ledgerDone : ∀ i ∈ s.ledger, (getPat s i).phase = .done
  pat : s.err = none → ∀ i, i < s.nPat → patInv s i

/-- Virtual-time ordering invariant (holds when every sampled delay is
non-negative): pending events never lie in the past, wait queues are
FIFO-ordered by request time, and the ledger is ordered by completion
time. -/
structure TimeInv (s : SimState) : Prop where
  qTimes : ∀ e ∈ s.queue, s.now ≤ e.time
  radReq : ∀ i ∈ s.radQueue, (getPat s i).reqTime ≤ s.now
  specReq : ∀ i ∈ s.specQueue, (getPat s i).reqTime ≤ s.now
  radSorted : s.radQueue.Pairwise (fun i j => (getPat s i).reqTime ≤ (getPat s j).reqTime)
  specSorted : s.specQueue.Pairwise (fun i j => (getPat s i).reqTime ≤ (getPat s j).reqTime)
  ledgerFin : ∀ i ∈ s.ledger, (getPat s i).finishTime ≤ s.now
  ledgerSorted : s.ledger.Pairwise (fun i j => (getPat s i).finishTime ≤ (getPat s j).finishTime)

/-! ## Concrete configurations and oracles for witnesses and counterexamples -/

/-- The inline configuration of the baseline runners (run_rulebased_baseline
and run_partial_baseline spell it out; the radiology uniform range is set to
the degenerate pair 24-24 so that the constant oracle draw below lies in the
support). -/
def cfgStd : FifoConfig :=
  { radMin := 24, radMax := 24, pcpLambda := 1/8, refMean := 21/2, refStd := 21/10,
    paShape := 5/2, paScale := 6/5, payMin := 1, payMode := 2, payMax := 5,
    schedShape := 9/5, schedScale := 28, noShowProb := 3/20, reschedMin := 1/2,
    reschedMax := 3/2, radCap := 120, specCap := 40 }

/-- A baseline oracle whose draws all lie in the support of the sampled
distributions for `cfgStd`. -/
def oBase : Oracle :=
  { uniformDraw := fun _ _ _ => 24
    exponentialDraw := fun _ _ => 1
    normalDraw := fun _ _ _ => 1
    gammaDraw := fun _ _ _ => 1
    triangularDraw := fun _ _ _ _ => 1
    weibullDraw := fun _ _ => 1
    randomDraw := fun _ => 9/10
    choiceDraw := fun _ _ => 0 }

/-- Configuration for the ledger-order counterexample: a wide radiology
uniform range. -/
def cfgWide : FifoConfig := { cfgStd with radMax := 24000 }

/-- Oracle for the ledger-order counterexample: the radiology draw of case 0
(draw index 4) is huge, every other draw is small. -/
def oSlow0 : Oracle :=
  { oBase with uniformDraw := fun k _ _ => if k = 4 then 24000 else 24 }

/-- Configuration for the priority counterexample: radiology capacity 1. -/
def cfgCap1 : FifoConfig := { cfgStd with radCap := 1 }

/-- Oracle for the priority counterexample: case 2 draws the diagnosis
"cancer staging" (cohort choice draw index 5), everyone else "diabetes". -/
def oCancer2 : Oracle :=
  { oBase with choiceDraw := fun k _ => if k = 5 then 3 else 0 }

/-- Oracle for the floor counterexample: the pcp exponential draw is 0.005,
inside the support of the exponential distribution. -/
def oTinyExp : Oracle := { oBase with exponentialDraw := fun _ _ => 1/200 }

/-- Configuration with an invalid triangular triple (min greater than max)
for the payer_review stage. -/
def cfgBadTri : FifoConfig := { cfgStd with payMin := 5, payMode := 3, payMax := 1 }

/-! ## Scheduler basics: the minimal event, steps, reachability -/

theorem evLeB_iff (a b : Ev) :
    evLeB a b = true ↔ (a.time < b.time ∨ (a.time = b.time ∧ a.seq ≤ b.seq)) := by
  unfold evLeB
  simp [Bool.or_eq_true, Bool.and_eq_true, decide_eq_true_eq]

theorem evLeB_total (a b : Ev) : evLeB a b = true ∨ evLeB b a = true := by
  rcases lt_trichotomy (MRat.toRat a.time) (MRat.toRat b.time) with h | h | h
  · exact Or.inl ((evLeB_iff a b).mpr (Or.inl ((MRat.lt_def _ _).mpr h)))
  · rcases Nat.le_total a.seq b.seq with hs | hs
    · exact Or.inl ((evLeB_iff a b).mpr (Or.inr ⟨MRat.toRat_inj h, hs⟩))
    · exact Or.inr ((evLeB_iff b a).mpr (Or.inr ⟨MRat.toRat_inj h.symm, hs⟩))
  · exact Or.inr ((evLeB_iff b a).mpr (Or.inl ((MRat.lt_def _ _).mpr h)))

theorem evLeB_key (a b : Ev) (h1 : evLeB a b = true) (h2 : evLeB b a = true) :
    a.time = b.time ∧ a.seq = b.seq := by
  rcases (evLeB_iff a b).mp h1 with h | ⟨ht, hs⟩
  · rcases (evLeB_iff b a).mp h2 with h' | ⟨ht', hs'⟩
    · rw [MRat.lt_def] at h h'
      exact absurd h' (not_lt_of_gt h)
    · rw [MRat.lt_def] at h
      rw [MRat.eq_iff] at ht'
      exact absurd ht'.symm (ne_of_lt h)
  · rcases (evLeB_iff b a).mp h2 with h' | ⟨ht', hs'⟩
    · rw [MRat.lt_def] at h'
      rw [MRat.eq_iff] at ht
      exact absurd ht.symm (ne_of_lt h')
    · exact ⟨ht, Nat.le_antisymm hs hs'⟩

theorem evLeB_refl (a : Ev) : evLeB a a = true :=
  (evLeB_iff a a).mpr (Or.inr ⟨rfl, Nat.le_refl _⟩)

theorem evLeB_trans {a b c : Ev} (h1 : evLeB a b = true) (h2 : evLeB b c = true) :
    evLeB a c = true := by
  rw [evLeB_iff] at h1 h2 ⊢
  simp only [MRat.lt_def, MRat.eq_iff] at h1 h2 ⊢
  rcases h1 with h1 | ⟨e1, s1⟩ <;> rcases h2 with h2 | ⟨e2, s2⟩
  · exact Or.inl (lt_trans h1 h2)
  · exact Or.inl (e2 ▸ h1)
  · exact Or.inl (e1 ▸ h2)
  · exact Or.inr ⟨e1.trans e2, Nat.le_trans s1 s2⟩

theorem minEv_none : ∀ {q : List Ev}, minEv q = none → q = []
  | [], _ => rfl
  | a :: rest, h => by
      unfold minEv at h
      cases hm : minEv rest <;> rw [hm] at h <;> simp at h

theorem minEv_mem : ∀ {q : List Ev} {e : Ev}, minEv q = some e → e ∈ q := by
  intro q
  induction q with
  | nil => intro e h; simp [minEv] at h
  | cons x rest ih =>
      intro e h
      unfold minEv at h
      cases hm : minEv rest with
      | none =>
          rw [hm] at h
          simp at h
          simp [h]
      | some m =>
          rw [hm] at h
          simp at h
          split at h
          · simp [← h]
          · right; rw [← h]; exact ih hm

theorem minEv_le : ∀ {q : List Ev} {e : Ev}, minEv q = some e →
    ∀ x ∈ q, evLeB e x = true := by
  intro q
  induction q with
  | nil => intro e h; simp [minEv] at h
  | cons a rest ih =>
      intro e h x hx
      unfold minEv at h
      cases hm : minEv rest with
      | none =>
          rw [hm] at h
          simp at h
          have hr : rest = [] := minEv_none hm
          subst hr
          rcases List.mem_singleton.mp hx with rfl
          rw [← h]
          exact evLeB_refl x
      | some m =>
          rw [hm] at h
          simp at h
          rcases List.mem_cons.mp hx with rfl | hx'
          · split at h
            · rw [← h]; exact evLeB_refl x
            · next hc =>
                rw [← h]
                rcases evLeB_total m x with h' | h'
                · exact h'
                · exact absurd h' hc
          · split at h
            · next hc => rw [← h]; exact evLeB_trans hc (ih hm x hx')
            · rw [← h]; exact ih hm x hx'

theorem stepRel_of_step {c : FifoConfig} {o : Oracle} {s s' : SimState}
    (h : step c o s = some s') : StepRel c o s s' := by
  unfold step at h
  split at h
  · exact absurd h (by simp)
  · next herr =>
      cases hm : minEv s.queue with
      | none => rw [hm] at h; exact absurd h (by simp)
      | some e =>
          rw [hm] at h
          refine ⟨by simpa using herr, e, minEv_mem hm, minEv_le hm, ?_⟩
          simpa using h.symm

theorem runN_reach (c : FifoConfig) (o : Oracle) (k : Nat) (s : SimState) :
    Reach c o s (runN c o k s) := by
  induction k generalizing s with
  | zero => exact Relation.ReflTransGen.refl
  | succ k ih =>
      show Reach c o s (match step c o s with
        | none => s
        | some s1 => runN c o k s1)
      cases h : step c o s with
      | none => exact Relation.ReflTransGen.refl
      | some s1 => exact Relation.ReflTransGen.head (stepRel_of_step h) (ih s1)

theorem terminal_of_queue_empty {c : FifoConfig} {o : Oracle} {s : SimState}
    (h : s.queue = []) : Terminal c o s := by
  rintro s' ⟨_, e, he, _⟩
  rw [h] at he
  exact absurd he (List.not_mem_nil e)

theorem runN_none (c : FifoConfig) (o : Oracle) (n : Nat) (s : SimState)
    (h : step c o s = none) : runN c o n s = s := by
  cases n with
  | zero => rfl
  | succ n => show (match step c o s with | none => s | some s1 => runN c o n s1) = s; rw [h]

theorem runN_add (c : FifoConfig) (o : Oracle) (m n : Nat) (s : SimState) :
    runN c o (m + n) s = runN c o n (runN c o m s) := by
  induction m generalizing s with
  | zero => simp [runN]
  | succ m ih =>
      have hmn : m + 1 + n = (m + n) + 1 := by omega
      rw [hmn]
      show (match step c o s with
            | none => s
            | some s1 => runN c o (m + n) s1) =
           runN c o n (match step c o s with
            | none => s
            | some s1 => runN c o m s1)
      cases h : step c o s with
      | none => rw [runN_none c o n s h]
      | some s1 => exact ih s1

theorem stepRel_unique {c : FifoConfig} {o : Oracle} {s s1 s2 : SimState}
    (hnd : (s.queue.map Ev.seq).Nodup)
    (h1 : StepRel c o s s1) (h2 : StepRel c o s s2) : s1 = s2 := by
  obtain ⟨-, e1, he1, hm1, rfl⟩ := h1
  obtain ⟨-, e2, he2, hm2, rfl⟩ := h2
  have key := evLeB_key e1 e2 (hm1 e2 he2) (hm2 e1 he1)
  have : e1 = e2 := List.inj_on_of_nodup_map hnd he1 he2 key.2
  rw [this]

theorem reach_terminal_unique {c : FifoConfig} {o : Oracle}
    (nodup : ∀ s s', StepRel c o s s' →
      (s.queue.map Ev.seq).Nodup → (s'.queue.map Ev.seq).Nodup) :
    ∀ {s s1 s2 : SimState}, (s.queue.map Ev.seq).Nodup →
    Reach c o s s1 → Reach c o s s2 →
    Terminal c o s1 → Terminal c o s2 → s1 = s2 := by
  intro s s1 s2 hnd r1
  induction r1 using Relation.ReflTransGen.head_induction_on generalizing s2 with
  | refl =>
      intro r2 t1 t2
      rcases Relation.ReflTransGen.cases_head r2 with h | ⟨t, ht, -⟩
      · exact h
      · exact absurd ht (t1 t)
  | head hstep rrest ih =>
      next a b =>
      intro r2 t1 t2
      rcases Relation.ReflTransGen.cases_head r2 with h | ⟨t, ht, hrest⟩
      · subst h
        exact absurd hstep (t2 _)
      · have hbt : b = t := stepRel_unique hnd hstep ht
        subst hbt
        exact ih (nodup _ _ hstep hnd) hrest t1 t2

/-! ## List and state frame lemmas -/

theorem list_getD_set_same {α : Type} : ∀ (l : List α) (i : Nat) (p d : α),
    i < l.length → (l.set i p).getD i d = p
  | [], i, p, d, h => by simp at h
  | a :: t, 0, p, d, _ => rfl
  | a :: t, i + 1, p, d, h => by
      show (t.set i p).getD i d = p
      exact list_getD_set_same t i p d (by simpa using h)

theorem list_getD_set_ne {α : Type} : ∀ (l : List α) (i j : Nat) (p d : α),
    i ≠ j → (l.set i p).getD j d = l.getD j d
  | [], _, _, _, _, _ => rfl
  | a :: t, 0, 0, p, d, h => absurd rfl h
  | a :: t, 0, j + 1, p, d, _ => rfl
  | a :: t, i + 1, 0, p, d, _ => rfl
  | a :: t, i + 1, j + 1, p, d, h => by
      show (t.set i p).getD j d = t.getD j d
      exact list_getD_set_ne t i j p d (by omega)

theorem filter_erase_comm {α : Type} [DecidableEq α] (p : α → Bool) :
    ∀ (l : List α) (e : α), (l.erase e).filter p = (l.filter p).erase e := by
  intro l
  induction l with
  | nil => intro e; rfl
  | cons x t ih =>
      intro e
      by_cases hx : x = e
      · subst hx
        rw [List.erase_cons_head]
        by_cases hp : p x
        · rw [List.filter_cons_of_pos hp, List.erase_cons_head]
        · rw [List.filter_cons_of_neg hp, List.erase_of_not_mem]
          intro hmem
          exact hp (List.of_mem_filter hmem)
      · rw [List.erase_cons_tail (by simpa using hx)]
        by_cases hp : p x
        · rw [List.filter_cons_of_pos hp, List.filter_cons_of_pos hp,
              List.erase_cons_tail (by simpa using hx), ih]
        · rw [List.filter_cons_of_neg hp, List.filter_cons_of_neg hp, ih]

theorem evsFor_erase_of_ne {q : List Ev} {e : Ev} {i : Nat} (h : evPid e ≠ i) :
    evsFor i (q.erase e) = evsFor i q := by
  unfold evsFor
  rw [filter_erase_comm, List.erase_of_not_mem]
  intro hmem
  have := List.of_mem_filter hmem
  simp at this
  exact h this

theorem evsFor_append (i : Nat) (q r : List Ev) :
    evsFor i (q ++ r) = evsFor i q ++ evsFor i r := by
  unfold evsFor
  exact List.filter_append q r

theorem evsFor_singleton_same {i : Nat} {e : Ev} (h : evPid e = i) :
    evsFor i [e] = [e] := by
  unfold evsFor
  rw [List.filter_singleton]
  have : (evPid e == i) = true := by simpa using h
  rw [this, cond_true]

theorem evsFor_singleton_ne {i : Nat} {e : Ev} (h : evPid e ≠ i) :
    evsFor i [e] = [] := by
  unfold evsFor
  rw [List.filter_singleton]
  have : (evPid e == i) = false := by simpa using h
  rw [this, cond_false]

theorem mem_evsFor {i : Nat} {q : List Ev} {e : Ev} (he : e ∈ q) (h : evPid e = i) :
    e ∈ evsFor i q :=
  List.mem_filter.mpr ⟨he, by simpa using h⟩

theorem eq_of_evsFor_singleton {i : Nat} {q : List Ev} {e e' : Ev}
    (hq : evsFor i q = [e']) (he : e ∈ q) (h : evPid e = i) : e = e' := by
  have := mem_evsFor he h
  rw [hq] at this
  exact List.mem_singleton.mp this

theorem evsFor_erase_of_singleton {i : Nat} {q : List Ev} {e : Ev}
    (hq : evsFor i q = [e]) : evsFor i (q.erase e) = [] := by
  unfold evsFor at hq ⊢
  rw [filter_erase_comm, hq, List.erase_cons_head]

theorem setPat_fields (s : SimState) (i : Nat) (p : MPatient) :
    (setPat s i p).queue = s.queue ∧ (setPat s i p).now = s.now ∧
    (setPat s i p).nextSeq = s.nextSeq ∧ (setPat s i p).nPat = s.nPat ∧
    (setPat s i p).radQueue = s.radQueue ∧ (setPat s i p).specQueue = s.specQueue ∧
    (setPat s i p).radHolders = s.radHolders ∧ (setPat s i p).specHolders = s.specHolders ∧
    (setPat s i p).ledger = s.ledger ∧ (setPat s i p).err = s.err :=
  ⟨rfl, rfl, rfl, rfl, rfl, rfl, rfl, rfl, rfl, rfl⟩

theorem getPat_setPat_same {s : SimState} {i : Nat} (p : MPatient)
    (h : i < s.pats.length) : getPat (setPat s i p) i = p :=
  list_getD_set_same s.pats i p default h

theorem getPat_setPat_ne {s : SimState} {i j : Nat} (p : MPatient)
    (h : i ≠ j) : getPat (setPat s i p) j = getPat s j :=
  list_getD_set_ne s.pats i j p default h

theorem patInv_frame {s s' : SimState} {j : Nat}
    (hp : getPat s' j = getPat s j)
    (hq : evsFor j s'.queue = evsFor j s.queue)
    (hrad : j ∈ s'.radQueue ↔ j ∈ s.radQueue)
    (hspec : j ∈ s'.specQueue ↔ j ∈ s.specQueue)
    (h : patInv s j) : patInv s' j := by
  unfold patInv at h ⊢
  rw [hp, hq]
  cases hph : (getPat s j).phase with
  | idle => rw [hph] at h; exact h
  | waiting k =>
      rw [hph] at h
      refine ⟨h.1, h.2.1, ?_⟩
      rcases h.2.2 with ⟨hk, hm⟩ | ⟨hk, hm⟩
      · exact Or.inl ⟨hk, hrad.mpr hm⟩
      · exact Or.inr ⟨hk, hspec.mpr hm⟩
  | granted k => rw [hph] at h; exact h
  | inService k d => rw [hph] at h; exact h
  | done => rw [hph] at h; exact h

/-! ## Invariant preservation through the coordination operations -/

theorem seq_push {q : List Ev} {ns : Nat} (hnd : (q.map Ev.seq).Nodup)
    (hb : ∀ e ∈ q, e.seq < ns) (t : MRat) (tag : EvTag) :
    ((q ++ [(⟨t, ns, tag⟩ : Ev)]).map Ev.seq).Nodup ∧
      (∀ e ∈ q ++ [(⟨t, ns, tag⟩ : Ev)], e.seq < ns + 1) := by
  constructor
  · rw [List.map_append]
    rw [List.nodup_append]
    refine ⟨hnd, List.nodup_singleton ns, ?_⟩
    intro x hx
    simp only [List.map_cons, List.map_nil, List.mem_singleton]
    intro hxs
    obtain ⟨e, he, rfl⟩ := List.mem_map.mp hx
    subst hxs
    exact absurd rfl (Nat.ne_of_lt (hb e he))
  · intro e he
    rcases List.mem_append.mp he with h | h
    · exact Nat.lt_succ_of_lt (hb e h)
    · rcases List.mem_singleton.mp h with rfl
      exact Nat.lt_succ_self ns

/-- All run-invariant components, except that case i is in the middle of a
transition: it owns no pending event, sits in no wait queue and not in the
ledger, and its accounting has caught up with the current instant (its next
action happens now). -/
structure InvExcept (c : FifoConfig) (s : SimState) (i : Nat) : Prop where
  patsLen : s.pats.length = s.nPat
  seqNodup : (s.queue.map Ev.seq).Nodup
  seqBound : ∀ e ∈ s.queue, e.seq < s.nextSeq
  pidBound : ∀ e ∈ s.queue, evPid e < s.nPat
  radCapB : s.radHolders.length ≤ c.radCap
  specCapB : s.specHolders.length ≤ c.specCap
  radNodup : s.radQueue.Nodup
  specNodup : s.specQueue.Nodup
  radPhase : ∀ j ∈ s.radQueue, (getPat s j).phase = .waiting 0
  specPhase : ∀ j ∈ s.specQueue, (getPat s j).phase = .waiting 5
  radBound : ∀ j ∈ s.radQueue, j < s.nPat
  specBound : ∀ j ∈ s.specQueue, j < s.nPat
  ledgerDone : ∀ j ∈ s.ledger, (getPat s j).phase = .done
  err : s.err = none
  pat : ∀ j, j < s.nPat → j ≠ i → patInv s j
  iLt : i < s.nPat
  iEvs : evsFor i s.queue = []
  iAcct : (getPat s i).startTime + (getPat s i).waitAccum + sumDur (getPat s i) = s.now
  iRad : i ∉ s.radQueue
  iSpec : i ∉ s.specQueue
  iLedger : i ∉ s.ledger

theorem getPat_pushEv (s : SimState) (t : MRat) (tag : EvTag) (j : Nat) :
    getPat (pushEv s t tag) j = getPat s j := rfl

theorem simInv_sampleAndSchedule {c : FifoConfig} {o : Oracle} {s : SimState} {i k : Nat}
    (H : InvExcept c s i) : SimInv c (sampleAndSchedule c o s i k) := by
  cases hs : sampleStage c o s.drawCtr k with
  | mk res ctr =>
    cases res with
    | error e =>
        have hstate : sampleAndSchedule c o s i k = { s with err := some e, drawCtr := ctr } := by
          unfold sampleAndSchedule
          rw [hs]
        rw [hstate]
        clear hstate
        refine ⟨H.patsLen, H.seqNodup, H.seqBound, H.pidBound, H.radCapB, H.specCapB,
          H.radNodup, H.specNodup, H.radPhase, H.specPhase, H.radBound, H.specBound,
          H.ledgerDone, ?_⟩
        intro herr
        exact absurd herr (by simp)
    | ok d =>
        have hlen : i < s.pats.length := H.patsLen ▸ H.iLt
        have hstate : sampleAndSchedule c o s i k =
            pushEv (setPat { s with drawCtr := ctr } i
              { getPat s i with phase := .inService k d }) (s.now + d) (EvTag.fire i) := by
          unfold sampleAndSchedule
          rw [hs]
          rfl
        set p1 : MPatient := { getPat s i with phase := .inService k d } with hp1
        set s2 : SimState := pushEv (setPat { s with drawCtr := ctr } i p1)
          (s.now + d) (EvTag.fire i) with hs2
        rw [hstate]
        have hq : s2.queue = s.queue ++ [(⟨s.now + d, s.nextSeq, EvTag.fire i⟩ : Ev)] := rfl
        have hns : s2.nextSeq = s.nextSeq + 1 := rfl
        have hgi : getPat s2 i = p1 :=
          (getPat_pushEv _ _ _ i).trans (getPat_setPat_same p1 hlen)
        have hgj : ∀ j, j ≠ i → getPat s2 j = getPat s j := fun j hj =>
          (getPat_pushEv _ _ _ j).trans (getPat_setPat_ne p1 (fun hh => hj hh.symm))
        have hpush := seq_push H.seqNodup H.seqBound (s.now + d) (EvTag.fire i)
        refine ⟨?_, ?_, ?_, ?_, H.radCapB, H.specCapB, H.radNodup, H.specNodup,
          ?_, ?_, H.radBound, H.specBound, ?_, ?_⟩
        · show (s.pats.set i p1).length = s.nPat
          rw [List.length_set]
          exact H.patsLen
        · rw [hq]
          exact hpush.1
        · rw [hq, hns]
          exact hpush.2
        · rw [hq]
          intro e he
          rcases List.mem_append.mp he with h | h
          · exact H.pidBound e h
          · rcases List.mem_singleton.mp h with rfl
            simpa [evPid] using H.iLt
        · intro j hj
          have hji : j ≠ i := fun hh => H.iRad (hh ▸ hj)
          rw [hgj j hji]
          exact H.radPhase j hj
        · intro j hj
          have hji : j ≠ i := fun hh => H.iSpec (hh ▸ hj)
          rw [hgj j hji]
          exact H.specPhase j hj
        · intro j hj
          have hji : j ≠ i := fun hh => H.iLedger (hh ▸ hj)
          rw [hgj j hji]
          exact H.ledgerDone j hj
        · intro _ j hjn
          by_cases hji : j = i
          · subst hji
            unfold patInv
            rw [hgi, hq]
            show ∃ sq, evsFor j (s.queue ++ [⟨s.now + d, s.nextSeq, EvTag.fire j⟩]) =
              [⟨p1.startTime + p1.waitAccum + sumDur p1 + d, sq, EvTag.fire j⟩]
            refine ⟨s.nextSeq, ?_⟩
            rw [evsFor_append, H.iEvs, List.nil_append,
              evsFor_singleton_same (by simp [evPid])]
            have hacct : p1.startTime + p1.waitAccum + sumDur p1 + d = s.now + d := by
              rw [hp1]
              show (getPat s j).startTime + (getPat s j).waitAccum + sumDur (getPat s j) + d
                = s.now + d
              rw [H.iAcct]
            rw [hacct]
          · refine patInv_frame (hgj j hji) ?_ Iff.rfl Iff.rfl (H.pat j hjn hji)
            rw [hq, evsFor_append,
              evsFor_singleton_ne (by simpa [evPid] using fun hh => hji hh.symm),
              List.append_nil]

theorem simInv_tryAcquireRad {c : FifoConfig} {o : Oracle} {s : SimState} {i : Nat}
    (H : InvExcept c s i) : SimInv c (tryAcquireRad c o s i) := by
  unfold tryAcquireRad
  split
  · next hg =>
      exact simInv_sampleAndSchedule
        ⟨H.patsLen, H.seqNodup, H.seqBound, H.pidBound,
         by simpa [List.length_append] using Nat.succ_le_of_lt hg.2, H.specCapB,
         H.radNodup, H.specNodup, H.radPhase, H.specPhase, H.radBound, H.specBound,
         H.ledgerDone, H.err, H.pat, H.iLt, H.iEvs, H.iAcct, H.iRad, H.iSpec, H.iLedger⟩
  · next hg =>
      have hlen : i < s.pats.length := H.patsLen ▸ H.iLt
      set p1 : MPatient := { getPat s i with phase := .waiting 0, reqTime := s.now } with hp1
      have hgi : getPat (setPat { s with radQueue := s.radQueue ++ [i] } i p1) i = p1 :=
        getPat_setPat_same p1 hlen
      have hgj : ∀ j, j ≠ i →
          getPat (setPat { s with radQueue := s.radQueue ++ [i] } i p1) j = getPat s j :=
        fun j hj => getPat_setPat_ne p1 (fun hh => hj hh.symm)
      refine ⟨?_, H.seqNodup, H.seqBound, H.pidBound, H.radCapB, H.specCapB, ?_,
        H.specNodup, ?_, ?_, ?_, H.specBound, ?_, ?_⟩
      · show (s.pats.set i p1).length = s.nPat
        rw [List.length_set]
        exact H.patsLen
      · show (s.radQueue ++ [i]).Nodup
        rw [List.nodup_append]
        refine ⟨H.radNodup, List.nodup_singleton i, ?_⟩
        intro x hx hxi
        exact H.iRad ((List.mem_singleton.mp hxi) ▸ hx)
      · intro j hj
        rcases List.mem_append.mp hj with h | h
        · have hji : j ≠ i := fun hh => H.iRad (hh ▸ h)
          rw [hgj j hji]
          exact H.radPhase j h
        · rcases List.mem_singleton.mp h with rfl
          rw [hgi]
      · intro j hj
        have hji : j ≠ i := fun hh => H.iSpec (hh ▸ hj)
        rw [hgj j hji]
        exact H.specPhase j hj
      · intro j hj
        rcases List.mem_append.mp hj with h | h
        · exact H.radBound j h
        · rcases List.mem_singleton.mp h with rfl
          exact H.iLt
      · intro j hj
        have hji : j ≠ i := fun hh => H.iLedger (hh ▸ hj)
        rw [hgj j hji]
        exact H.ledgerDone j hj
      · intro _ j hjn
        by_cases hji : j = i
        · subst hji
          unfold patInv
          rw [hgi]
          exact ⟨H.iEvs, H.iAcct.symm, Or.inl ⟨rfl, List.mem_append.mpr
            (Or.inr (List.mem_singleton.mpr rfl))⟩⟩
        · refine patInv_frame (hgj j hji) rfl ?_ Iff.rfl (H.pat j hjn hji)
          show j ∈ s.radQueue ++ [i] ↔ j ∈ s.radQueue
          constructor
          · intro h
            rcases List.mem_append.mp h with h | h
            · exact h
            · exact absurd (List.mem_singleton.mp h) hji
          · exact fun h => List.mem_append.mpr (Or.inl h)

theorem simInv_tryAcquireSpec {c : FifoConfig} {o : Oracle} {s : SimState} {i : Nat}
    (H : InvExcept c s i) : SimInv c (tryAcquireSpec c o s i) := by
  unfold tryAcquireSpec
  split
  · next hg =>
      exact simInv_sampleAndSchedule
        ⟨H.patsLen, H.seqNodup, H.seqBound, H.pidBound, H.radCapB,
         by simpa [List.length_append] using Nat.succ_le_of_lt hg.2,
         H.radNodup, H.specNodup, H.radPhase, H.specPhase, H.radBound, H.specBound,
         H.ledgerDone, H.err, H.pat, H.iLt, H.iEvs, H.iAcct, H.iRad, H.iSpec, H.iLedger⟩
  · next hg =>
      have hlen : i < s.pats.length := H.patsLen ▸ H.iLt
      set p1 : MPatient := { getPat s i with phase := .waiting 5, reqTime := s.now } with hp1
      have hgi : getPat (setPat { s with specQueue := s.specQueue ++ [i] } i p1) i = p1 :=
        getPat_setPat_same p1 hlen
      have hgj : ∀ j, j ≠ i →
          getPat (setPat { s with specQueue := s.specQueue ++ [i] } i p1) j = getPat s j :=
        fun j hj => getPat_setPat_ne p1 (fun hh => hj hh.symm)
      refine ⟨?_, H.seqNodup, H.seqBound, H.pidBound, H.radCapB, H.specCapB,
        H.radNodup, ?_, ?_, ?_, H.radBound, ?_, ?_, ?_⟩
      · show (s.pats.set i p1).length = s.nPat
        rw [List.length_set]
        exact H.patsLen
      · show (s.specQueue ++ [i]).Nodup
        rw [List.nodup_append]
        refine ⟨H.specNodup, List.nodup_singleton i, ?_⟩
        intro x hx hxi
        exact H.iSpec ((List.mem_singleton.mp hxi) ▸ hx)
      · intro j hj
        have hji : j ≠ i := fun hh => H.iRad (hh ▸ hj)
        rw [hgj j hji]
        exact H.radPhase j hj
      · intro j hj
        rcases List.mem_append.mp hj with h | h
        · have hji : j ≠ i := fun hh => H.iSpec (hh ▸ h)
          rw [hgj j hji]
          exact H.specPhase j h
        · rcases List.mem_singleton.mp h with rfl
          rw [hgi]
      · intro j hj
        rcases List.mem_append.mp hj with h | h
        · exact H.specBound j h
        · rcases List.mem_singleton.mp h with rfl
          exact H.iLt
      · intro j hj
        have hji : j ≠ i := fun hh => H.iLedger (hh ▸ hj)
        rw [hgj j hji]
        exact H.ledgerDone j hj
      · intro _ j hjn
        by_cases hji : j = i
        · subst hji
          unfold patInv
          rw [hgi]
          exact ⟨H.iEvs, H.iAcct.symm, Or.inr ⟨rfl, List.mem_append.mpr
            (Or.inr (List.mem_singleton.mpr rfl))⟩⟩
        · refine patInv_frame (hgj j hji) rfl Iff.rfl ?_ (H.pat j hjn hji)
          show j ∈ s.specQueue ++ [i] ↔ j ∈ s.specQueue
          constructor
          · intro h
            rcases List.mem_append.mp h with h | h
            · exact h
            · exact absurd (List.mem_singleton.mp h) hji
          · exact fun h => List.mem_append.mpr (Or.inl h)

theorem simInv_enterStage {c : FifoConfig} {o : Oracle} {s : SimState} {i k : Nat}
    (H : InvExcept c s i) : SimInv c (enterStage c o s i k) := by
  unfold enterStage
  by_cases h0 : k = 0
  · rw [if_pos h0]
    exact simInv_tryAcquireRad H
  · rw [if_neg h0]
    by_cases h5 : k = 5
    · rw [if_pos h5]
      exact simInv_tryAcquireSpec H
    · rw [if_neg h5]
      exact simInv_sampleAndSchedule H

theorem mrat_wait_eq {a b cc r t : MRat} (h : r = a + b + cc) :
    a + (b + (t - r)) + cc = t := by
  apply MRat.toRat_inj
  have h2 := congrArg MRat.toRat h
  simp only [MRat.toRat_add] at h2
  simp only [MRat.toRat_add, MRat.toRat_sub]
  linarith

theorem length_erase_le {α : Type} [DecidableEq α] (l : List α) (a : α) :
    (l.erase a).length ≤ l.length :=
  List.Sublist.length_le (List.erase_sublist a l)

theorem evsFor_resume_same (w : Nat) (t : MRat) (sq : Nat) :
    evsFor w [(⟨t, sq, EvTag.resume w⟩ : Ev)] = [(⟨t, sq, EvTag.resume w⟩ : Ev)] :=
  evsFor_singleton_same rfl

theorem evsFor_resume_ne {j w : Nat} (h : w ≠ j) (t : MRat) (sq : Nat) :
    evsFor j [(⟨t, sq, EvTag.resume w⟩ : Ev)] = [] :=
  evsFor_singleton_ne h

/-- Generic head-of-queue grant: if the state s2 agrees with s except that
waiter w moved from the front of one wait queue into that pool's holder list
(with holder counts still within capacity), then granting w — crediting its
wait, marking it granted and scheduling its resumption now — preserves the
invariant around case i. -/
theorem invExcept_grantW {c : FifoConfig} {s s2 : SimState} {i w k : Nat}
    (H : InvExcept c s i)
    (hpats : s2.pats = s.pats) (hnow : s2.now = s.now) (hqueue : s2.queue = s.queue)
    (hseq : s2.nextSeq = s.nextSeq) (hnpat : s2.nPat = s.nPat)
    (hrh : s2.radHolders.length ≤ c.radCap) (hsh : s2.specHolders.length ≤ c.specCap)
    (hrq : (k = 0 ∧ s.radQueue = w :: s2.radQueue ∧ s2.specQueue = s.specQueue) ∨
           (k = 5 ∧ s.specQueue = w :: s2.specQueue ∧ s2.radQueue = s.radQueue))
    (hled : s2.ledger = s.ledger) (herr : s2.err = s.err) :
    InvExcept c (pushEv (setPat s2 w { getPat s w with
        waitAccum := (getPat s w).waitAccum + (s.now - (getPat s w).reqTime),
        phase := Phase.granted k }) s.now (EvTag.resume w)) i := by
  set pw : MPatient := { getPat s w with
      waitAccum := (getPat s w).waitAccum + (s.now - (getPat s w).reqTime),
      phase := Phase.granted k } with hpw
  have hB : (s.radQueue = w :: s2.radQueue ∧ s2.specQueue = s.specQueue ∧
        (getPat s w).phase = Phase.waiting 0) ∨
      (s.specQueue = w :: s2.specQueue ∧ s2.radQueue = s.radQueue ∧
        (getPat s w).phase = Phase.waiting 5) := by
    rcases hrq with ⟨_, hq0, hq1⟩ | ⟨_, hq0, hq1⟩
    · exact Or.inl ⟨hq0, hq1, H.radPhase w (by rw [hq0]; exact List.mem_cons_self w _)⟩
    · exact Or.inr ⟨hq0, hq1, H.specPhase w (by rw [hq0]; exact List.mem_cons_self w _)⟩
  have hwn : w < s.nPat := by
    rcases hB with ⟨hq0, _, _⟩ | ⟨hq0, _, _⟩
    · exact H.radBound w (by rw [hq0]; exact List.mem_cons_self w _)
    · exact H.specBound w (by rw [hq0]; exact List.mem_cons_self w _)
  have hwi : w ≠ i := by
    rcases hB with ⟨hq0, _, _⟩ | ⟨hq0, _, _⟩
    · exact fun hh => H.iRad (hh ▸ (by rw [hq0]; exact List.mem_cons_self w _))
    · exact fun hh => H.iSpec (hh ▸ (by rw [hq0]; exact List.mem_cons_self w _))
  have hwpat := H.pat w hwn hwi
  have hwinfo : evsFor w s.queue = [] ∧ (getPat s w).reqTime =
      (getPat s w).startTime + (getPat s w).waitAccum + sumDur (getPat s w) := by
    unfold patInv at hwpat
    rcases hB with ⟨_, _, hwph⟩ | ⟨_, _, hwph⟩ <;> rw [hwph] at hwpat <;>
      exact ⟨hwpat.1, hwpat.2.1⟩
  have hlenw : w < s2.pats.length := by rw [hpats, H.patsLen]; exact hwn
  have hgw : getPat (pushEv (setPat s2 w pw) s.now (EvTag.resume w)) w = pw := by
    rw [getPat_pushEv]
    exact getPat_setPat_same pw hlenw
  have hgj : ∀ j, j ≠ w →
      getPat (pushEv (setPat s2 w pw) s.now (EvTag.resume w)) j = getPat s j := by
    intro j hj
    rw [getPat_pushEv, getPat_setPat_ne pw (fun hh => hj hh.symm)]
    unfold getPat
    rw [hpats]
  have hpush := seq_push H.seqNodup H.seqBound s.now (EvTag.resume w)
  refine ⟨?_, ?_, ?_, ?_, hrh, hsh, ?_, ?_, ?_, ?_, ?_, ?_, ?_, ?_, ?_, ?_, ?_, ?_, ?_, ?_, ?_⟩
  · show (s2.pats.set w pw).length = s2.nPat
    rw [List.length_set, hpats, hnpat]
    exact H.patsLen
  · show ((s2.queue ++ [(⟨s.now, s2.nextSeq, EvTag.resume w⟩ : Ev)]).map Ev.seq).Nodup
    rw [hqueue, hseq]
    exact hpush.1
  · show ∀ e ∈ s2.queue ++ [(⟨s.now, s2.nextSeq, EvTag.resume w⟩ : Ev)], e.seq < s2.nextSeq + 1
    rw [hqueue, hseq]
    exact hpush.2
  · show ∀ e ∈ s2.queue ++ [(⟨s.now, s2.nextSeq, EvTag.resume w⟩ : Ev)], evPid e < s2.nPat
    rw [hqueue, hseq, hnpat]
    intro e he
    rcases List.mem_append.mp he with h | h
    · exact H.pidBound e h
    · rcases List.mem_singleton.mp h with rfl
      simpa [evPid] using hwn
  · show s2.radQueue.Nodup
    rcases hB with ⟨hq0, _, _⟩ | ⟨_, hq1, _⟩
    · have h0 := H.radNodup
      rw [hq0] at h0
      exact (List.nodup_cons.mp h0).2
    · rw [hq1]
      exact H.radNodup
  · show s2.specQueue.Nodup
    rcases hB with ⟨_, hq1, _⟩ | ⟨hq0, _, _⟩
    · rw [hq1]
      exact H.specNodup
    · have h0 := H.specNodup
      rw [hq0] at h0
      exact (List.nodup_cons.mp h0).2
  · intro j hj
    have hj2 : j ∈ s2.radQueue := hj
    rcases hB with ⟨hq0, _, _⟩ | ⟨_, hq1, hwph⟩
    · have hjw : j ≠ w := by
        intro hh
        have h0 := H.radNodup
        rw [hq0] at h0
        exact (List.nodup_cons.mp h0).1 (hh ▸ hj2)
      rw [hgj j hjw]
      exact H.radPhase j (by rw [hq0]; exact List.mem_cons_of_mem w hj2)
    · have hjs : j ∈ s.radQueue := by rw [hq1] at hj2; exact hj2
      have hjw : j ≠ w := by
        intro hh
        have h0 := H.radPhase j hjs
        rw [hh, hwph] at h0
        exact absurd h0 (by simp)
      rw [hgj j hjw]
      exact H.radPhase j hjs
  · intro j hj
    have hj2 : j ∈ s2.specQueue := hj
    rcases hB with ⟨_, hq1, hwph⟩ | ⟨hq0, _, _⟩
    · have hjs : j ∈ s.specQueue := by rw [hq1] at hj2; exact hj2
      have hjw : j ≠ w := by
        intro hh
        have h0 := H.specPhase j hjs
        rw [hh, hwph] at h0
        exact absurd h0 (by simp)
      rw [hgj j hjw]
      exact H.specPhase j hjs
    · have hjw : j ≠ w := by
        intro hh
        have h0 := H.specNodup
        rw [hq0] at h0
        exact (List.nodup_cons.mp h0).1 (hh ▸ hj2)
      rw [hgj j hjw]
      exact H.specPhase j (by rw [hq0]; exact List.mem_cons_of_mem w hj2)
  · intro j hj
    have hj2 : j ∈ s2.radQueue := hj
    show j < s2.nPat
    rw [hnpat]
    rcases hB with ⟨hq0, _, _⟩ | ⟨_, hq1, _⟩
    · exact H.radBound j (by rw [hq0]; exact List.mem_cons_of_mem w hj2)
    · exact H.radBound j (by rw [hq1] at hj2; exact hj2)
  · intro j hj
    have hj2 : j ∈ s2.specQueue := hj
    show j < s2.nPat
    rw [hnpat]
    rcases hB with ⟨_, hq1, _⟩ | ⟨hq0, _, _⟩
    · exact H.specBound j (by rw [hq1] at hj2; exact hj2)
    · exact H.specBound j (by rw [hq0]; exact List.mem_cons_of_mem w hj2)
  · intro j hj
    have hj2 : j ∈ s.ledger := by
      have h0 : j ∈ s2.ledger := hj
      rw [hled] at h0
      exact h0
    have hjw : j ≠ w := by
      intro hh
      have h0 := H.ledgerDone j hj2
      rcases hB with ⟨_, _, hwph⟩ | ⟨_, _, hwph⟩ <;> rw [hh, hwph] at h0 <;>
        exact absurd h0 (by simp)
    rw [hgj j hjw]
    exact H.ledgerDone j hj2
  · show s2.err = none
    rw [herr]
    exact H.err
  · intro j hjn hji
    have hjn2 : j < s.nPat := by
      have h0 : j < s2.nPat := hjn
      rw [hnpat] at h0
      exact h0
    by_cases hjw : j = w
    · subst hjw
      unfold patInv
      rw [hgw]
      refine ⟨s2.nextSeq, ?_⟩
      have hti : pw.startTime + pw.waitAccum + sumDur pw = s.now := by
        show (getPat s j).startTime + ((getPat s j).waitAccum + (s.now - (getPat s j).reqTime)) +
          sumDur (getPat s j) = s.now
        exact mrat_wait_eq hwinfo.2
      show evsFor j (s2.queue ++ [(⟨s.now, s2.nextSeq, EvTag.resume j⟩ : Ev)]) =
        [(⟨pw.startTime + pw.waitAccum + sumDur pw, s2.nextSeq, EvTag.resume j⟩ : Ev)]
      rw [hti, hqueue, evsFor_append, hwinfo.1, List.nil_append, evsFor_resume_same]
    · refine patInv_frame (hgj j hjw) ?_ ?_ ?_ (H.pat j hjn2 hji)
      · show evsFor j (s2.queue ++ [(⟨s.now, s2.nextSeq, EvTag.resume w⟩ : Ev)]) = evsFor j s.queue
        rw [hqueue, evsFor_append, evsFor_resume_ne (fun hh => hjw hh.symm), List.append_nil]
      · show j ∈ s2.radQueue ↔ j ∈ s.radQueue
        rcases hB with ⟨hq0, _, _⟩ | ⟨_, hq1, _⟩
        · rw [hq0]
          constructor
          · exact fun h => List.mem_cons_of_mem w h
          · intro h
            rcases List.mem_cons.mp h with h | h
            · exact absurd h hjw
            · exact h
        · rw [hq1]
      · show j ∈ s2.specQueue ↔ j ∈ s.specQueue
        rcases hB with ⟨_, hq1, _⟩ | ⟨hq0, _, _⟩
        · rw [hq1]
        · rw [hq0]
          constructor
          · exact fun h => List.mem_cons_of_mem w h
          · intro h
            rcases List.mem_cons.mp h with h | h
            · exact absurd h hjw
            · exact h
  · show i < s2.nPat
    rw [hnpat]
    exact H.iLt
  · show evsFor i (s2.queue ++ [(⟨s.now, s2.nextSeq, EvTag.resume w⟩ : Ev)]) = []
    rw [hqueue, evsFor_append, H.iEvs, evsFor_resume_ne hwi, List.nil_append]
  · rw [hgj i (fun hh => hwi hh.symm)]
    show (getPat s i).startTime + (getPat s i).waitAccum + sumDur (getPat s i) = s2.now
    rw [hnow]
    exact H.iAcct
  · show i ∉ s2.radQueue
    rcases hB with ⟨hq0, _, _⟩ | ⟨_, hq1, _⟩
    · intro hmem
      exact H.iRad (by rw [hq0]; exact List.mem_cons_of_mem w hmem)
    · rw [hq1]
      exact H.iRad
  · show i ∉ s2.specQueue
    rcases hB with ⟨_, hq1, _⟩ | ⟨hq0, _, _⟩
    · rw [hq1]
      exact H.iSpec
    · intro hmem
      exact H.iSpec (by rw [hq0]; exact List.mem_cons_of_mem w hmem)
  · show i ∉ s2.ledger
    rw [hled]
    exact H.iLedger

theorem invExcept_releaseRad {c : FifoConfig} {s : SimState} {i : Nat}
    (H : InvExcept c s i) : InvExcept c (releaseRad c s i) i := by
  unfold releaseRad
  split
  · exact ⟨H.patsLen, H.seqNodup, H.seqBound, H.pidBound,
      le_trans (length_erase_le _ _) H.radCapB, H.specCapB,
      H.radNodup, H.specNodup, H.radPhase, H.specPhase,
      H.radBound, H.specBound, H.ledgerDone, H.err, H.pat, H.iLt,
      H.iEvs, H.iAcct, H.iRad, H.iSpec, H.iLedger⟩
  · next w rest hq =>
      split
      · next hcap =>
          exact invExcept_grantW H rfl rfl rfl rfl rfl
            (by show (s.radHolders.erase i ++ [w]).length ≤ c.radCap
                rw [List.length_append]
                exact Nat.succ_le_of_lt hcap)
            H.specCapB (Or.inl ⟨rfl, hq, rfl⟩) rfl rfl
      · exact ⟨H.patsLen, H.seqNodup, H.seqBound, H.pidBound,
          le_trans (length_erase_le _ _) H.radCapB, H.specCapB,
          H.radNodup, H.specNodup, H.radPhase, H.specPhase,
          H.radBound, H.specBound, H.ledgerDone, H.err, H.pat, H.iLt,
          H.iEvs, H.iAcct, H.iRad, H.iSpec, H.iLedger⟩

theorem invExcept_releaseSpec {c : FifoConfig} {s : SimState} {i : Nat}
    (H : InvExcept c s i) : InvExcept c (releaseSpec c s i) i := by
  unfold releaseSpec
  split
  · exact ⟨H.patsLen, H.seqNodup, H.seqBound, H.pidBound,
      H.radCapB, le_trans (length_erase_le _ _) H.specCapB,
      H.radNodup, H.specNodup, H.radPhase, H.specPhase,
      H.radBound, H.specBound, H.ledgerDone, H.err, H.pat, H.iLt,
      H.iEvs, H.iAcct, H.iRad, H.iSpec, H.iLedger⟩
  · next w rest hq =>
      split
      · next hcap =>
          exact invExcept_grantW H rfl rfl rfl rfl rfl
            H.radCapB
            (by show (s.specHolders.erase i ++ [w]).length ≤ c.specCap
                rw [List.length_append]
                exact Nat.succ_le_of_lt hcap)
            (Or.inr ⟨rfl, hq, rfl⟩) rfl rfl
      · exact ⟨H.patsLen, H.seqNodup, H.seqBound, H.pidBound,
          H.radCapB, le_trans (length_erase_le _ _) H.specCapB,
          H.radNodup, H.specNodup, H.radPhase, H.specPhase,
          H.radBound, H.specBound, H.ledgerDone, H.err, H.pat, H.iLt,
          H.iEvs, H.iAcct, H.iRad, H.iSpec, H.iLedger⟩
theorem mrat_sum_append (l : List MRat) (d : MRat) : (l ++ [d]).sum = l.sum + d := by
  apply MRat.toRat_inj
  rw [MRat.toRat_add]
  rw [MRat.toRat_listSum, MRat.toRat_listSum]
  rw [List.map_append]
  simp

theorem sumDur_record (p : MPatient) (nm : String) (d : MRat) :
    sumDur { p with stageTimes := p.stageTimes ++ [(nm, d)] } = sumDur p + d := by
  show ((p.stageTimes ++ [(nm, d)]).map Prod.snd).sum = (p.stageTimes.map Prod.snd).sum + d
  rw [List.map_append]
  exact mrat_sum_append _ _

theorem mrat_add_zero_add_zero (x : MRat) : x + 0 + 0 = x := by
  apply MRat.toRat_inj
  rw [MRat.toRat_add, MRat.toRat_add, MRat.toRat_zero]
  ring

theorem mrat_sub_acct {a b cc t : MRat} (h : a + b + cc = t) : t - a = b + cc := by
  apply MRat.toRat_inj
  have h2 := congrArg MRat.toRat h
  simp only [MRat.toRat_add] at h2
  rw [MRat.toRat_sub, MRat.toRat_add]
  linarith

theorem mrat_add_shift (a b cc d : MRat) : a + b + (cc + d) = a + b + cc + d := by
  apply MRat.toRat_inj
  simp only [MRat.toRat_add]
  ring

theorem simInv_finishCase {c : FifoConfig} {s : SimState} {i : Nat}
    (H : InvExcept c s i) : SimInv c (finishCase s i) := by
  unfold finishCase
  set pd : MPatient := { getPat s i with
      totalLatency := s.now - (getPat s i).startTime,
      finishTime := s.now, phase := Phase.done } with hpd
  have hlen : i < s.pats.length := by rw [H.patsLen]; exact H.iLt
  refine ⟨?_, H.seqNodup, H.seqBound, H.pidBound, H.radCapB, H.specCapB,
    H.radNodup, H.specNodup, ?_, ?_, H.radBound, H.specBound, ?_, ?_⟩
  · show (s.pats.set i pd).length = s.nPat
    rw [List.length_set]
    exact H.patsLen
  · intro j hj
    have hj2 : j ∈ s.radQueue := hj
    have hji : j ≠ i := fun hh => H.iRad (hh ▸ hj2)
    show (getPat (setPat s i pd) j).phase = Phase.waiting 0
    rw [getPat_setPat_ne pd (fun hh => hji hh.symm)]
    exact H.radPhase j hj2
  · intro j hj
    have hj2 : j ∈ s.specQueue := hj
    have hji : j ≠ i := fun hh => H.iSpec (hh ▸ hj2)
    show (getPat (setPat s i pd) j).phase = Phase.waiting 5
    rw [getPat_setPat_ne pd (fun hh => hji hh.symm)]
    exact H.specPhase j hj2
  · intro j hj
    have hj2 : j ∈ s.ledger ++ [i] := hj
    rcases List.mem_append.mp hj2 with h | h
    · have hji : j ≠ i := fun hh => H.iLedger (hh ▸ h)
      show (getPat (setPat s i pd) j).phase = Phase.done
      rw [getPat_setPat_ne pd (fun hh => hji hh.symm)]
      exact H.ledgerDone j h
    · rcases List.mem_singleton.mp h with rfl
      show (getPat (setPat s j pd) j).phase = Phase.done
      rw [getPat_setPat_same pd hlen]
  · intro _ j hjn
    have hjn2 : j < s.nPat := hjn
    show patInv (setPat s i pd) j
    by_cases hji : j = i
    · subst hji
      unfold patInv
      rw [getPat_setPat_same pd hlen]
      refine ⟨?_, ?_⟩
      · show evsFor j s.queue = []
        exact H.iEvs
      · show s.now - (getPat s j).startTime =
          (getPat s j).waitAccum + sumDur (getPat s j)
        exact mrat_sub_acct H.iAcct
    · exact patInv_frame (getPat_setPat_ne pd (fun hh => hji hh.symm)) rfl
        Iff.rfl Iff.rfl (H.pat j hjn2 hji)

theorem simInv_fireStep {c : FifoConfig} {o : Oracle} {s : SimState} {i k : Nat} {d : MRat}
    (Hmid : InvExcept c (recordStage s i k d) i) :
    SimInv c (fireStep c o s i k d) := by
  unfold fireStep
  split
  · exact simInv_finishCase Hmid
  · split
    · exact simInv_enterStage (invExcept_releaseRad Hmid)
    · split
      · exact simInv_enterStage (invExcept_releaseSpec Hmid)
      · exact simInv_enterStage Hmid
/-- Popping the unique pending event of case i preserves the invariant around
i (used when the continuation leaves the patient record untouched before its
next transition). -/
theorem invExcept_popped {c : FifoConfig} {s : SimState} {e : Ev} {i : Nat}
    (H : SimInv c s) (herr : s.err = none)
    (hpid : evPid e = i) (hmem : e ∈ s.queue)
    (hsng : evsFor i s.queue = [e])
    (hacct : (getPat s i).startTime + (getPat s i).waitAccum + sumDur (getPat s i) = e.time)
    (hirad : i ∉ s.radQueue) (hispec : i ∉ s.specQueue) (hiled : i ∉ s.ledger) :
    InvExcept c { s with queue := s.queue.erase e, now := e.time } i := by
  have hi : i < s.nPat := by rw [← hpid]; exact H.pidBound e hmem
  refine ⟨H.patsLen, ?_, ?_, ?_, H.radCapB, H.specCapB, H.radNodup, H.specNodup,
    H.radPhase, H.specPhase, H.radBound, H.specBound, H.ledgerDone, herr, ?_, hi,
    ?_, hacct, hirad, hispec, hiled⟩
  · exact H.seqNodup.sublist (List.Sublist.map Ev.seq (List.erase_sublist e s.queue))
  · intro e2 he2
    exact H.seqBound e2 (List.mem_of_mem_erase he2)
  · intro e2 he2
    exact H.pidBound e2 (List.mem_of_mem_erase he2)
  · intro j hjn hji
    refine patInv_frame
      (show getPat { s with queue := s.queue.erase e, now := e.time } j = getPat s j from rfl)
      ?_ Iff.rfl Iff.rfl (H.pat herr j hjn)
    show evsFor j (s.queue.erase e) = evsFor j s.queue
    exact evsFor_erase_of_ne (fun hh => hji (hpid.symm.trans hh).symm)
  · exact evsFor_erase_of_singleton hsng

/-- Popping the unique pending event of case i and overwriting its record
with any patient whose accounting has caught up with the event time yields
the mid-transition invariant. -/
theorem invExcept_popSet {c : FifoConfig} {s s1 : SimState} {e : Ev} {i : Nat}
    {pnew : MPatient}
    (H : SimInv c s) (herr : s.err = none)
    (hpid : evPid e = i) (hmem : e ∈ s.queue)
    (hsng : evsFor i s.queue = [e])
    (hirad : i ∉ s.radQueue) (hispec : i ∉ s.specQueue) (hiled : i ∉ s.ledger)
    (hacct : pnew.startTime + pnew.waitAccum + sumDur pnew = e.time)
    (h1 : s1 = { s with queue := s.queue.erase e, now := e.time }) :
    InvExcept c (setPat s1 i pnew) i := by
  have hi : i < s.nPat := by rw [← hpid]; exact H.pidBound e hmem
  have hq1 : s1.queue = s.queue.erase e := by rw [h1]
  have hnow1 : s1.now = e.time := by rw [h1]
  have hpats1 : s1.pats = s.pats := by rw [h1]
  have hrad1 : s1.radQueue = s.radQueue := by rw [h1]
  have hspec1 : s1.specQueue = s.specQueue := by rw [h1]
  have hrh1 : s1.radHolders = s.radHolders := by rw [h1]
  have hsh1 : s1.specHolders = s.specHolders := by rw [h1]
  have hled1 : s1.ledger = s.ledger := by rw [h1]
  have herr1 : s1.err = s.err := by rw [h1]
  have hseq1 : s1.nextSeq = s.nextSeq := by rw [h1]
  have hnpat1 : s1.nPat = s.nPat := by rw [h1]
  have hlen : i < s1.pats.length := by rw [hpats1, H.patsLen]; exact hi
  have hgi : getPat (setPat s1 i pnew) i = pnew := getPat_setPat_same pnew hlen
  have hgj : ∀ j, j ≠ i → getPat (setPat s1 i pnew) j = getPat s j := by
    intro j hj
    rw [getPat_setPat_ne pnew (fun hh => hj hh.symm)]
    unfold getPat
    rw [hpats1]
  refine ⟨?_, ?_, ?_, ?_, ?_, ?_, ?_, ?_, ?_, ?_, ?_, ?_, ?_, ?_, ?_, ?_, ?_, ?_, ?_, ?_, ?_⟩
  · show (s1.pats.set i pnew).length = s1.nPat
    rw [List.length_set, hpats1, hnpat1]
    exact H.patsLen
  · show (s1.queue.map Ev.seq).Nodup
    rw [hq1]
    exact H.seqNodup.sublist (List.Sublist.map Ev.seq (List.erase_sublist e s.queue))
  · show ∀ e2 ∈ s1.queue, e2.seq < s1.nextSeq
    rw [hq1, hseq1]
    intro e2 he2
    exact H.seqBound e2 (List.mem_of_mem_erase he2)
  · show ∀ e2 ∈ s1.queue, evPid e2 < s1.nPat
    rw [hq1, hnpat1]
    intro e2 he2
    exact H.pidBound e2 (List.mem_of_mem_erase he2)
  · show s1.radHolders.length ≤ c.radCap
    rw [hrh1]
    exact H.radCapB
  · show s1.specHolders.length ≤ c.specCap
    rw [hsh1]
    exact H.specCapB
  · show s1.radQueue.Nodup
    rw [hrad1]
    exact H.radNodup
  · show s1.specQueue.Nodup
    rw [hspec1]
    exact H.specNodup
  · intro j hj
    have hj2 : j ∈ s.radQueue := by
      have h0 : j ∈ s1.radQueue := hj
      rw [hrad1] at h0
      exact h0
    have hji : j ≠ i := fun hh => hirad (hh ▸ hj2)
    rw [hgj j hji]
    exact H.radPhase j hj2
  · intro j hj
    have hj2 : j ∈ s.specQueue := by
      have h0 : j ∈ s1.specQueue := hj
      rw [hspec1] at h0
      exact h0
    have hji : j ≠ i := fun hh => hispec (hh ▸ hj2)
    rw [hgj j hji]
    exact H.specPhase j hj2
  · intro j hj
    have hj2 : j ∈ s.radQueue := by
      have h0 : j ∈ s1.radQueue := hj
      rw [hrad1] at h0
      exact h0
    show j < s1.nPat
    rw [hnpat1]
    exact H.radBound j hj2
  · intro j hj
    have hj2 : j ∈ s.specQueue := by
      have h0 : j ∈ s1.specQueue := hj
      rw [hspec1] at h0
      exact h0
    show j < s1.nPat
    rw [hnpat1]
    exact H.specBound j hj2
  · intro j hj
    have hj2 : j ∈ s.ledger := by
      have h0 : j ∈ s1.ledger := hj
      rw [hled1] at h0
      exact h0
    have hji : j ≠ i := fun hh => hiled (hh ▸ hj2)
    rw [hgj j hji]
    exact H.ledgerDone j hj2
  · show s1.err = none
    rw [herr1]
    exact herr
  · intro j hjn hji
    have hjn2 : j < s.nPat := by
      have h0 : j < s1.nPat := hjn
      rw [hnpat1] at h0
      exact h0
    refine patInv_frame (hgj j hji) ?_ ?_ ?_ (H.pat herr j hjn2)
    · show evsFor j s1.queue = evsFor j s.queue
      rw [hq1]
      exact evsFor_erase_of_ne (fun hh => hji (hpid.symm.trans hh).symm)
    · show j ∈ s1.radQueue ↔ j ∈ s.radQueue
      rw [hrad1]
    · show j ∈ s1.specQueue ↔ j ∈ s.specQueue
      rw [hspec1]
  · show i < s1.nPat
    rw [hnpat1]
    exact hi
  · show evsFor i s1.queue = []
    rw [hq1]
    exact evsFor_erase_of_singleton hsng
  · rw [hgi]
    show pnew.startTime + pnew.waitAccum + sumDur pnew = s1.now
    rw [hnow1]
    exact hacct
  · show i ∉ s1.radQueue
    rw [hrad1]
    exact hirad
  · show i ∉ s1.specQueue
    rw [hspec1]
    exact hispec
  · show i ∉ s1.ledger
    rw [hled1]
    exact hiled
theorem exec_start (c : FifoConfig) (o : Oracle) (s : SimState) (t : MRat) (sq i : Nat) :
    exec c o s ⟨t, sq, EvTag.start i⟩ =
      match (getPat s i).phase with
      | Phase.idle => enterStage c o (setPat s i { getPat s i with startTime := s.now }) i 0
      | _ => s := rfl

theorem exec_resume (c : FifoConfig) (o : Oracle) (s : SimState) (t : MRat) (sq i : Nat) :
    exec c o s ⟨t, sq, EvTag.resume i⟩ =
      match (getPat s i).phase with
      | Phase.granted k => sampleAndSchedule c o s i k
      | _ => s := rfl

theorem exec_fire (c : FifoConfig) (o : Oracle) (s : SimState) (t : MRat) (sq i : Nat) :
    exec c o s ⟨t, sq, EvTag.fire i⟩ =
      match (getPat s i).phase with
      | Phase.inService k d => fireStep c o s i k d
      | _ => s := rfl
/-- One scheduler step preserves the run invariant. -/
theorem simInv_stepRel {c : FifoConfig} {o : Oracle} {s s' : SimState}
    (H : SimInv c s) (h : StepRel c o s s') : SimInv c s' := by
  obtain ⟨herr, e, hmem, hmin, hs'⟩ := h
  subst hs'
  obtain ⟨t, sq, tag⟩ := e
  cases tag with
  | start p =>
      have hp2 : patInv s p := H.pat herr p (H.pidBound _ hmem)
      rw [exec_start]
      split
      · next hph =>
          have hph2 : (getPat s p).phase = Phase.idle := hph
          have hp3 := hp2
          unfold patInv at hp3
          rw [hph2] at hp3
          obtain ⟨hst, hwa, T, sq2, hq2⟩ := hp3
          have heq2 : (⟨t, sq, EvTag.start p⟩ : Ev) = ⟨T, sq2, EvTag.start p⟩ :=
            eq_of_evsFor_singleton hq2 hmem rfl
          have hsng : evsFor p s.queue = [(⟨t, sq, EvTag.start p⟩ : Ev)] := by
            rw [hq2, ← heq2]
          have hirad : p ∉ s.radQueue := by
            intro hm
            have h0 := H.radPhase p hm
            rw [hph2] at h0
            exact absurd h0 (by simp)
          have hispec : p ∉ s.specQueue := by
            intro hm
            have h0 := H.specPhase p hm
            rw [hph2] at h0
            exact absurd h0 (by simp)
          have hiled : p ∉ s.ledger := by
            intro hm
            have h0 := H.ledgerDone p hm
            rw [hph2] at h0
            exact absurd h0 (by simp)
          have hacct : t + (getPat s p).waitAccum + sumDur (getPat s p) = t := by
            rw [hwa]
            unfold sumDur
            rw [hst]
            exact mrat_add_zero_add_zero t
          exact simInv_enterStage
            (invExcept_popSet H herr
              (show evPid (⟨t, sq, EvTag.start p⟩ : Ev) = p from rfl)
              hmem hsng hirad hispec hiled hacct rfl)
      · next x hne =>
          cases hph : (getPat s p).phase with
          | idle => exact absurd hph hne
          | waiting k =>
              unfold patInv at hp2
              rw [hph] at hp2
              have hin : (⟨t, sq, EvTag.start p⟩ : Ev) ∈ evsFor p s.queue :=
                mem_evsFor hmem rfl
              rw [hp2.1] at hin
              exact absurd hin (List.not_mem_nil _)
          | granted k =>
              unfold patInv at hp2
              rw [hph] at hp2
              obtain ⟨sq2, hq2⟩ := hp2
              have heq2 := eq_of_evsFor_singleton hq2 hmem rfl
              simp at heq2
          | inService k d =>
              unfold patInv at hp2
              rw [hph] at hp2
              obtain ⟨sq2, hq2⟩ := hp2
              have heq2 := eq_of_evsFor_singleton hq2 hmem rfl
              simp at heq2
          | done =>
              unfold patInv at hp2
              rw [hph] at hp2
              have hin : (⟨t, sq, EvTag.start p⟩ : Ev) ∈ evsFor p s.queue :=
                mem_evsFor hmem rfl
              rw [hp2.1] at hin
              exact absurd hin (List.not_mem_nil _)
  | resume p =>
      have hp2 : patInv s p := H.pat herr p (H.pidBound _ hmem)
      rw [exec_resume]
      split
      · next k hph =>
          have hph2 : (getPat s p).phase = Phase.granted k := hph
          have hp3 := hp2
          unfold patInv at hp3
          rw [hph2] at hp3
          obtain ⟨sq2, hq2⟩ := hp3
          have heq2 : (⟨t, sq, EvTag.resume p⟩ : Ev) =
              ⟨(getPat s p).startTime + (getPat s p).waitAccum + sumDur (getPat s p), sq2,
                EvTag.resume p⟩ :=
            eq_of_evsFor_singleton hq2 hmem rfl
          have hsng : evsFor p s.queue = [(⟨t, sq, EvTag.resume p⟩ : Ev)] := by
            rw [hq2, ← heq2]
          have ht : t = (getPat s p).startTime + (getPat s p).waitAccum + sumDur (getPat s p) :=
            congrArg Ev.time heq2
          have hirad : p ∉ s.radQueue := by
            intro hm
            have h0 := H.radPhase p hm
            rw [hph2] at h0
            exact absurd h0 (by simp)
          have hispec : p ∉ s.specQueue := by
            intro hm
            have h0 := H.specPhase p hm
            rw [hph2] at h0
            exact absurd h0 (by simp)
          have hiled : p ∉ s.ledger := by
            intro hm
            have h0 := H.ledgerDone p hm
            rw [hph2] at h0
            exact absurd h0 (by simp)
          exact simInv_sampleAndSchedule
            (invExcept_popped H herr
              (show evPid (⟨t, sq, EvTag.resume p⟩ : Ev) = p from rfl)
              hmem hsng ht.symm hirad hispec hiled)
      · next x hne =>
          cases hph : (getPat s p).phase with
          | granted k => exact absurd hph (hne k)
          | idle =>
              unfold patInv at hp2
              rw [hph] at hp2
              obtain ⟨hst, hwa, T, sq2, hq2⟩ := hp2
              have heq2 := eq_of_evsFor_singleton hq2 hmem rfl
              simp at heq2
          | waiting k =>
              unfold patInv at hp2
              rw [hph] at hp2
              have hin : (⟨t, sq, EvTag.resume p⟩ : Ev) ∈ evsFor p s.queue :=
                mem_evsFor hmem rfl
              rw [hp2.1] at hin
              exact absurd hin (List.not_mem_nil _)
          | inService k d =>
              unfold patInv at hp2
              rw [hph] at hp2
              obtain ⟨sq2, hq2⟩ := hp2
              have heq2 := eq_of_evsFor_singleton hq2 hmem rfl
              simp at heq2
          | done =>
              unfold patInv at hp2
              rw [hph] at hp2
              have hin : (⟨t, sq, EvTag.resume p⟩ : Ev) ∈ evsFor p s.queue :=
                mem_evsFor hmem rfl
              rw [hp2.1] at hin
              exact absurd hin (List.not_mem_nil _)
  | fire p =>
      have hp2 : patInv s p := H.pat herr p (H.pidBound _ hmem)
      rw [exec_fire]
      split
      · next k d hph =>
          have hph2 : (getPat s p).phase = Phase.inService k d := hph
          have hp3 := hp2
          unfold patInv at hp3
          rw [hph2] at hp3
          obtain ⟨sq2, hq2⟩ := hp3
          have heq2 : (⟨t, sq, EvTag.fire p⟩ : Ev) =
              ⟨(getPat s p).startTime + (getPat s p).waitAccum + sumDur (getPat s p) + d, sq2,
                EvTag.fire p⟩ :=
            eq_of_evsFor_singleton hq2 hmem rfl
          have hsng : evsFor p s.queue = [(⟨t, sq, EvTag.fire p⟩ : Ev)] := by
            rw [hq2, ← heq2]
          have ht : t = (getPat s p).startTime + (getPat s p).waitAccum + sumDur (getPat s p) + d :=
            congrArg Ev.time heq2
          have hirad : p ∉ s.radQueue := by
            intro hm
            have h0 := H.radPhase p hm
            rw [hph2] at h0
            exact absurd h0 (by simp)
          have hispec : p ∉ s.specQueue := by
            intro hm
            have h0 := H.specPhase p hm
            rw [hph2] at h0
            exact absurd h0 (by simp)
          have hiled : p ∉ s.ledger := by
            intro hm
            have h0 := H.ledgerDone p hm
            rw [hph2] at h0
            exact absurd h0 (by simp)
          have hacct : (getPat s p).startTime + (getPat s p).waitAccum +
              sumDur { getPat s p with
                stageTimes := (getPat s p).stageTimes ++ [(stageName k, d)] } = t := by
            rw [sumDur_record, ht]
            exact mrat_add_shift _ _ _ _
          refine simInv_fireStep ?_
          unfold recordStage
          exact invExcept_popSet H herr
            (show evPid (⟨t, sq, EvTag.fire p⟩ : Ev) = p from rfl)
            hmem hsng hirad hispec hiled hacct rfl
      · next x hne =>
          cases hph : (getPat s p).phase with
          | inService k d => exact absurd hph (hne k d)
          | idle =>
              unfold patInv at hp2
              rw [hph] at hp2
              obtain ⟨hst, hwa, T, sq2, hq2⟩ := hp2
              have heq2 := eq_of_evsFor_singleton hq2 hmem rfl
              simp at heq2
          | waiting k =>
              unfold patInv at hp2
              rw [hph] at hp2
              have hin : (⟨t, sq, EvTag.fire p⟩ : Ev) ∈ evsFor p s.queue :=
                mem_evsFor hmem rfl
              rw [hp2.1] at hin
              exact absurd hin (List.not_mem_nil _)
          | granted k =>
              unfold patInv at hp2
              rw [hph] at hp2
              obtain ⟨sq2, hq2⟩ := hp2
              have heq2 := eq_of_evsFor_singleton hq2 hmem rfl
              simp at heq2
          | done =>
              unfold patInv at hp2
              rw [hph] at hp2
              have hin : (⟨t, sq, EvTag.fire p⟩ : Ev) ∈ evsFor p s.queue :=
                mem_evsFor hmem rfl
              rw [hp2.1] at hin
              exact absurd hin (List.not_mem_nil _)
/-- The run invariant holds at every reachable state. -/
theorem simInv_reach {c : FifoConfig} {o : Oracle} {s s' : SimState}
    (H : SimInv c s) (h : Reach c o s s') : SimInv c s' := by
  induction h with
  | refl => exact H
  | tail _ hstep ih => exact simInv_stepRel ih hstep

theorem getD_map_range {α : Type} (f : Nat → α) (d : α) (n i : Nat) (h : i < n) :
    ((List.range n).map f).getD i d = f i := by
  have hlen : i < ((List.range n).map f).length := by simpa using h
  rw [List.getD_eq_getElem ((List.range n).map f) d hlen]
  simp

theorem evsFor_initQueue (n i : Nat) :
    evsFor i ((List.range n).map
      (fun j => (⟨(Nat.cast j : MRat) / 100, j, EvTag.start j⟩ : Ev))) =
    if i < n then [(⟨(Nat.cast i : MRat) / 100, i, EvTag.start i⟩ : Ev)] else [] := by
  induction n with
  | zero =>
      rw [if_neg (Nat.not_lt_zero i)]
      rfl
  | succ m ih =>
      rw [List.range_succ, List.map_append, List.map_singleton, evsFor_append, ih]
      by_cases h : i < m
      · rw [if_pos h, if_pos (Nat.lt_succ_of_lt h)]
        have hne : m ≠ i := fun hh => absurd h (by rw [← hh]; exact Nat.lt_irrefl m)
        rw [show evsFor i
            [(⟨(Nat.cast m : MRat) / 100, m, EvTag.start m⟩ : Ev)] = []
          from evsFor_singleton_ne hne]
        rw [List.append_nil]
      · by_cases h2 : i = m
        · subst h2
          rw [if_neg h, if_pos (Nat.lt_succ_self i), List.nil_append]
          exact evsFor_singleton_same rfl
        · rw [if_neg h, if_neg ?_, List.nil_append]
          · exact evsFor_singleton_ne (fun hh => h2 hh.symm)
          · intro hlt
            rcases Nat.lt_succ_iff_lt_or_eq.mp hlt with h3 | h3
            · exact h h3
            · exact h2 h3
/-- The run invariant holds at the initial state. -/
theorem simInv_init (c : FifoConfig) (n : Nat) (o : Oracle) : SimInv c (initState n o) := by
  refine ⟨?_, ?_, ?_, ?_, ?_, ?_, ?_, ?_, ?_, ?_, ?_, ?_, ?_, ?_⟩
  · show ((List.range n).map (fun i => mkPatient o i)).length = n
    rw [List.length_map, List.length_range]
  · show (((List.range n).map
        (fun i => (⟨(Nat.cast i : MRat) / 100, i, EvTag.start i⟩ : Ev))).map Ev.seq).Nodup
    rw [List.map_map]
    show ((List.range n).map (fun i => i)).Nodup
    rw [List.map_id']
    exact List.nodup_range n
  · intro e he
    obtain ⟨j, hj, rfl⟩ := List.mem_map.mp he
    simpa using List.mem_range.mp hj
  · intro e he
    obtain ⟨j, hj, rfl⟩ := List.mem_map.mp he
    simpa [evPid] using List.mem_range.mp hj
  · exact Nat.zero_le _
  · exact Nat.zero_le _
  · exact List.nodup_nil
  · exact List.nodup_nil
  · intro j hj
    exact absurd hj (List.not_mem_nil _)
  · intro j hj
    exact absurd hj (List.not_mem_nil _)
  · intro j hj
    exact absurd hj (List.not_mem_nil _)
  · intro j hj
    exact absurd hj (List.not_mem_nil _)
  · intro j hj
    exact absurd hj (List.not_mem_nil _)
  · intro _ i hi
    have hi2 : i < n := hi
    have hg : getPat (initState n o) i = mkPatient o i :=
      getD_map_range (fun i => mkPatient o i) default n i hi2
    unfold patInv
    rw [hg]
    refine ⟨rfl, rfl, (Nat.cast i : MRat) / 100, i, ?_⟩
    show evsFor i ((List.range n).map
        (fun j => (⟨(Nat.cast j : MRat) / 100, j, EvTag.start j⟩ : Ev))) =
      [(⟨(Nat.cast i : MRat) / 100, i, EvTag.start i⟩ : Ev)]
    rw [evsFor_initQueue, if_pos hi2]
theorem mrat_le_refl (a : MRat) : a ≤ a := by
  rw [MRat.le_def]

theorem mrat_le_trans {a b cc : MRat} (h1 : a ≤ b) (h2 : b ≤ cc) : a ≤ cc := by
  rw [MRat.le_def] at h1 h2 ⊢
  exact le_trans h1 h2

theorem mrat_le_of_lt {a b : MRat} (h : a < b) : a ≤ b := by
  rw [MRat.lt_def] at h
  rw [MRat.le_def]
  exact le_of_lt h

theorem mrat_le_add_nonneg {d : MRat} (a : MRat) (h : 0 ≤ d) : a ≤ a + d := by
  rw [MRat.le_def] at h ⊢
  rw [MRat.toRat_add]
  rw [MRat.toRat_zero] at h
  linarith

theorem mrat_div_nonneg_24 {v : MRat} (h : 0 ≤ v) : 0 ≤ v / 24 := by
  rw [MRat.le_def] at h ⊢
  rw [MRat.toRat_div, MRat.toRat_zero] at *
  rw [MRat.toRat_ofNat]
  positivity

theorem mrat_max_half_nonneg (v : MRat) : 0 ≤ max (1/2) v := by
  rw [MRat.le_def, MRat.toRat_max, MRat.toRat_zero, MRat.toRat_div, MRat.toRat_one,
    MRat.toRat_ofNat]
  rw [le_max_iff]
  left
  norm_num

theorem mrat_mul_nonneg {a b : MRat} (ha : 0 ≤ a) (hb : 0 ≤ b) : 0 ≤ a * b := by
  rw [MRat.le_def] at ha hb ⊢
  rw [MRat.toRat_mul]
  rw [MRat.toRat_zero] at *
  exact mul_nonneg ha hb

theorem mrat_half_nonneg : (0 : MRat) ≤ 1/2 := by
  rw [MRat.le_def, MRat.toRat_zero, MRat.toRat_div, MRat.toRat_one, MRat.toRat_ofNat]
  norm_num

theorem evLeB_time {a b : Ev} (h : evLeB a b = true) : a.time ≤ b.time := by
  rcases (evLeB_iff a b).mp h with h1 | ⟨h1, _⟩
  · exact mrat_le_of_lt h1
  · rw [h1]
    exact mrat_le_refl _

/-- Every successfully sampled stage duration is non-negative when the
oracle draws lie in the distribution supports and the Weibull scale is
non-negative. -/
theorem sampleStage_nonneg {c : FifoConfig} {o : Oracle} {ctr k : Nat} {d : MRat}
    (hnn : NonnegOracle o) (hsc : 0 ≤ c.schedScale)
    (h : (sampleStage c o ctr k).1 = .ok d) : 0 ≤ d := by
  obtain ⟨hu, he, hg, htr, hw⟩ := hnn
  unfold sampleStage at h
  split at h
  · unfold npUniform at h
    simp only [Except.map] at h
    cases h
    exact mrat_div_nonneg_24 (hu _ _ _)
  · split at h
    · unfold npExponential at h
      split at h
      · cases h
      · cases h
        exact he _ _
    · split at h
      · unfold npNormal at h
        split at h
        · simp only [Except.map] at h
          cases h
        · simp only [Except.map] at h
          cases h
          exact mrat_max_half_nonneg _
      · split at h
        · unfold npGamma at h
          split at h
          · cases h
          · split at h
            · cases h
            · cases h
              exact hg _ _ _
        · split at h
          · unfold npTriangular at h
            split at h
            · cases h
            · split at h
              · cases h
              · split at h
                · cases h
                · cases h
                  exact htr _ _ _ _
          · split at h
            · unfold npWeibull at h
              split at h
              · simp only [Except.map] at h
                cases h
              · simp only [Except.map] at h
                cases h
                exact mrat_mul_nonneg hsc (hw _ _)
            · split at h
              · unfold npUniform at h
                cases h
                exact hu _ _ _
              · cases h
                exact mrat_half_nonneg
theorem pairwise_reqTime_congr {s s2 : SimState} {l : List Nat}
    (hg : ∀ j ∈ l, getPat s2 j = getPat s j)
    (hp : l.Pairwise (fun a b => (getPat s a).reqTime ≤ (getPat s b).reqTime)) :
    l.Pairwise (fun a b => (getPat s2 a).reqTime ≤ (getPat s2 b).reqTime) := by
  refine List.Pairwise.imp_of_mem ?_ hp
  intro a b ha hb hR
  rw [hg a ha, hg b hb]
  exact hR

theorem pairwise_finishTime_congr {s s2 : SimState} {l : List Nat}
    (hg : ∀ j ∈ l, getPat s2 j = getPat s j)
    (hp : l.Pairwise (fun a b => (getPat s a).finishTime ≤ (getPat s b).finishTime)) :
    l.Pairwise (fun a b => (getPat s2 a).finishTime ≤ (getPat s2 b).finishTime) := by
  refine List.Pairwise.imp_of_mem ?_ hp
  intro a b ha hb hR
  rw [hg a ha, hg b hb]
  exact hR

/-- Overwriting the record of a case that sits in no wait queue and not in
the ledger preserves the time-ordering invariant. -/
theorem timeInv_setPat_out {s : SimState} {i : Nat} (pnew : MPatient)
    (hirad : i ∉ s.radQueue) (hispec : i ∉ s.specQueue) (hiled : i ∉ s.ledger)
    (Ht : TimeInv s) : TimeInv (setPat s i pnew) := by
  have hgj : ∀ j, j ≠ i → getPat (setPat s i pnew) j = getPat s j := fun j hj =>
    getPat_setPat_ne pnew (fun hh => hj hh.symm)
  refine ⟨Ht.qTimes, ?_, ?_, ?_, ?_, ?_, ?_⟩
  · intro j hj
    have hj2 : j ∈ s.radQueue := hj
    rw [hgj j (fun hh => hirad (hh ▸ hj2))]
    exact Ht.radReq j hj2
  · intro j hj
    have hj2 : j ∈ s.specQueue := hj
    rw [hgj j (fun hh => hispec (hh ▸ hj2))]
    exact Ht.specReq j hj2
  · show s.radQueue.Pairwise
      (fun a b => (getPat (setPat s i pnew) a).reqTime ≤ (getPat (setPat s i pnew) b).reqTime)
    exact pairwise_reqTime_congr
      (fun j hj => hgj j (fun hh => hirad (hh ▸ hj))) Ht.radSorted
  · show s.specQueue.Pairwise
      (fun a b => (getPat (setPat s i pnew) a).reqTime ≤ (getPat (setPat s i pnew) b).reqTime)
    exact pairwise_reqTime_congr
      (fun j hj => hgj j (fun hh => hispec (hh ▸ hj))) Ht.specSorted
  · intro j hj
    have hj2 : j ∈ s.ledger := hj
    rw [hgj j (fun hh => hiled (hh ▸ hj2))]
    exact Ht.ledgerFin j hj2
  · show s.ledger.Pairwise
      (fun a b => (getPat (setPat s i pnew) a).finishTime ≤ (getPat (setPat s i pnew) b).finishTime)
    exact pairwise_finishTime_congr
      (fun j hj => hgj j (fun hh => hiled (hh ▸ hj))) Ht.ledgerSorted

theorem timeInv_sampleAndSchedule {c : FifoConfig} {o : Oracle} {s : SimState} {i k : Nat}
    (hirad : i ∉ s.radQueue) (hispec : i ∉ s.specQueue) (hiled : i ∉ s.ledger)
    (Ht : TimeInv s) (hnn : NonnegOracle o) (hsc : 0 ≤ c.schedScale) :
    TimeInv (sampleAndSchedule c o s i k) := by
  cases hs : sampleStage c o s.drawCtr k with
  | mk res ctr =>
    cases res with
    | error e =>
        have hstate : sampleAndSchedule c o s i k = { s with err := some e, drawCtr := ctr } := by
          unfold sampleAndSchedule
          rw [hs]
        rw [hstate]
        exact ⟨Ht.qTimes, Ht.radReq, Ht.specReq, Ht.radSorted, Ht.specSorted,
          Ht.ledgerFin, Ht.ledgerSorted⟩
    | ok d =>
        have hd : 0 ≤ d := sampleStage_nonneg hnn hsc (by rw [hs])
        have hstate : sampleAndSchedule c o s i k =
            pushEv (setPat { s with drawCtr := ctr } i
              { getPat s i with phase := .inService k d }) (s.now + d) (EvTag.fire i) := by
          unfold sampleAndSchedule
          rw [hs]
          rfl
        set p1 : MPatient := { getPat s i with phase := .inService k d } with hp1
        rw [hstate]
        have hgj : ∀ j, j ≠ i →
            getPat (pushEv (setPat { s with drawCtr := ctr } i p1) (s.now + d) (EvTag.fire i)) j =
              getPat s j := fun j hj =>
          (getPat_pushEv _ _ _ j).trans (getPat_setPat_ne p1 (fun hh => hj hh.symm))
        refine ⟨?_, ?_, ?_, ?_, ?_, ?_, ?_⟩
        · show ∀ e ∈ s.queue ++ [(⟨s.now + d, s.nextSeq, EvTag.fire i⟩ : Ev)], s.now ≤ e.time
          intro e he
          rcases List.mem_append.mp he with h | h
          · exact Ht.qTimes e h
          · rcases List.mem_singleton.mp h with rfl
            exact mrat_le_add_nonneg s.now hd
        · intro j hj
          have hj2 : j ∈ s.radQueue := hj
          rw [hgj j (fun hh => hirad (hh ▸ hj2))]
          exact Ht.radReq j hj2
        · intro j hj
          have hj2 : j ∈ s.specQueue := hj
          rw [hgj j (fun hh => hispec (hh ▸ hj2))]
          exact Ht.specReq j hj2
        · show s.radQueue.Pairwise (fun a b =>
            (getPat (pushEv (setPat { s with drawCtr := ctr } i p1) (s.now + d)
              (EvTag.fire i)) a).reqTime ≤
            (getPat (pushEv (setPat { s with drawCtr := ctr } i p1) (s.now + d)
              (EvTag.fire i)) b).reqTime)
          exact pairwise_reqTime_congr
            (fun j hj => hgj j (fun hh => hirad (hh ▸ hj))) Ht.radSorted
        · show s.specQueue.Pairwise (fun a b =>
            (getPat (pushEv (setPat { s with drawCtr := ctr } i p1) (s.now + d)
              (EvTag.fire i)) a).reqTime ≤
            (getPat (pushEv (setPat { s with drawCtr := ctr } i p1) (s.now + d)
              (EvTag.fire i)) b).reqTime)
          exact pairwise_reqTime_congr
            (fun j hj => hgj j (fun hh => hispec (hh ▸ hj))) Ht.specSorted
        · intro j hj
          have hj2 : j ∈ s.ledger := hj
          rw [hgj j (fun hh => hiled (hh ▸ hj2))]
          exact Ht.ledgerFin j hj2
        · show s.ledger.Pairwise (fun a b =>
            (getPat (pushEv (setPat { s with drawCtr := ctr } i p1) (s.now + d)
              (EvTag.fire i)) a).finishTime ≤
            (getPat (pushEv (setPat { s with drawCtr := ctr } i p1) (s.now + d)
              (EvTag.fire i)) b).finishTime)
          exact pairwise_finishTime_congr
            (fun j hj => hgj j (fun hh => hiled (hh ▸ hj))) Ht.ledgerSorted
theorem timeInv_tryAcquireRad {c : FifoConfig} {o : Oracle} {s : SimState} {i : Nat}
    (hirad : i ∉ s.radQueue) (hispec : i ∉ s.specQueue) (hiled : i ∉ s.ledger)
    (hlen : i < s.pats.length)
    (Ht : TimeInv s) (hnn : NonnegOracle o) (hsc : 0 ≤ c.schedScale) :
    TimeInv (tryAcquireRad c o s i) := by
  unfold tryAcquireRad
  split
  · exact timeInv_sampleAndSchedule hirad hispec hiled
      ⟨Ht.qTimes, Ht.radReq, Ht.specReq, Ht.radSorted, Ht.specSorted,
        Ht.ledgerFin, Ht.ledgerSorted⟩ hnn hsc
  · set pw : MPatient := { getPat s i with phase := .waiting 0, reqTime := s.now } with hpw
    have hgj : ∀ j, j ≠ i →
        getPat (setPat { s with radQueue := s.radQueue ++ [i] } i pw) j = getPat s j :=
      fun j hj => getPat_setPat_ne pw (fun hh => hj hh.symm)
    have hgi : getPat (setPat { s with radQueue := s.radQueue ++ [i] } i pw) i = pw :=
      getPat_setPat_same pw hlen
    refine ⟨Ht.qTimes, ?_, ?_, ?_, ?_, ?_, ?_⟩
    · intro j hj
      have hj2 : j ∈ s.radQueue ++ [i] := hj
      rcases List.mem_append.mp hj2 with h | h
      · rw [hgj j (fun hh => hirad (hh ▸ h))]
        exact Ht.radReq j h
      · rcases List.mem_singleton.mp h with rfl
        rw [hgi]
        exact mrat_le_refl _
    · intro j hj
      have hj2 : j ∈ s.specQueue := hj
      rw [hgj j (fun hh => hispec (hh ▸ hj2))]
      exact Ht.specReq j hj2
    · show (s.radQueue ++ [i]).Pairwise (fun a b =>
        (getPat (setPat { s with radQueue := s.radQueue ++ [i] } i pw) a).reqTime ≤
        (getPat (setPat { s with radQueue := s.radQueue ++ [i] } i pw) b).reqTime)
      rw [List.pairwise_append]
      refine ⟨?_, List.pairwise_singleton _ _, ?_⟩
      · exact pairwise_reqTime_congr
          (fun j hj => hgj j (fun hh => hirad (hh ▸ hj))) Ht.radSorted
      · intro a ha b hb
        rcases List.mem_singleton.mp hb with rfl
        rw [hgj a (fun hh => hirad (hh ▸ ha)), hgi]
        exact Ht.radReq a ha
    · show s.specQueue.Pairwise (fun a b =>
        (getPat (setPat { s with radQueue := s.radQueue ++ [i] } i pw) a).reqTime ≤
        (getPat (setPat { s with radQueue := s.radQueue ++ [i] } i pw) b).reqTime)
      exact pairwise_reqTime_congr
        (fun j hj => hgj j (fun hh => hispec (hh ▸ hj))) Ht.specSorted
    · intro j hj
      have hj2 : j ∈ s.ledger := hj
      rw [hgj j (fun hh => hiled (hh ▸ hj2))]
      exact Ht.ledgerFin j hj2
    · show s.ledger.Pairwise (fun a b =>
        (getPat (setPat { s with radQueue := s.radQueue ++ [i] } i pw) a).finishTime ≤
        (getPat (setPat { s with radQueue := s.radQueue ++ [i] } i pw) b).finishTime)
      exact pairwise_finishTime_congr
        (fun j hj => hgj j (fun hh => hiled (hh ▸ hj))) Ht.ledgerSorted

theorem timeInv_tryAcquireSpec {c : FifoConfig} {o : Oracle} {s : SimState} {i : Nat}
    (hirad : i ∉ s.radQueue) (hispec : i ∉ s.specQueue) (hiled : i ∉ s.ledger)
    (hlen : i < s.pats.length)
    (Ht : TimeInv s) (hnn : NonnegOracle o) (hsc : 0 ≤ c.schedScale) :
    TimeInv (tryAcquireSpec c o s i) := by
  unfold tryAcquireSpec
  split
  · exact timeInv_sampleAndSchedule hirad hispec hiled
      ⟨Ht.qTimes, Ht.radReq, Ht.specReq, Ht.radSorted, Ht.specSorted,
        Ht.ledgerFin, Ht.ledgerSorted⟩ hnn hsc
  · set pw : MPatient := { getPat s i with phase := .waiting 5, reqTime := s.now } with hpw
    have hgj : ∀ j, j ≠ i →
        getPat (setPat { s with specQueue := s.specQueue ++ [i] } i pw) j = getPat s j :=
      fun j hj => getPat_setPat_ne pw (fun hh => hj hh.symm)
    have hgi : getPat (setPat { s with specQueue := s.specQueue ++ [i] } i pw) i = pw :=
      getPat_setPat_same pw hlen
    refine ⟨Ht.qTimes, ?_, ?_, ?_, ?_, ?_, ?_⟩
    · intro j hj
      have hj2 : j ∈ s.radQueue := hj
      rw [hgj j (fun hh => hirad (hh ▸ hj2))]
      exact Ht.radReq j hj2
    · intro j hj
      have hj2 : j ∈ s.specQueue ++ [i] := hj
      rcases List.mem_append.mp hj2 with h | h
      · rw [hgj j (fun hh => hispec (hh ▸ h))]
        exact Ht.specReq j h
      · rcases List.mem_singleton.mp h with rfl
        rw [hgi]
        exact mrat_le_refl _
    · show s.radQueue.Pairwise (fun a b =>
        (getPat (setPat { s with specQueue := s.specQueue ++ [i] } i pw) a).reqTime ≤
        (getPat (setPat { s with specQueue := s.specQueue ++ [i] } i pw) b).reqTime)
      exact pairwise_reqTime_congr
        (fun j hj => hgj j (fun hh => hirad (hh ▸ hj))) Ht.radSorted
    · show (s.specQueue ++ [i]).Pairwise (fun a b =>
        (getPat (setPat { s with specQueue := s.specQueue ++ [i] } i pw) a).reqTime ≤
        (getPat (setPat { s with specQueue := s.specQueue ++ [i] } i pw) b).reqTime)
      rw [List.pairwise_append]
      refine ⟨?_, List.pairwise_singleton _ _, ?_⟩
      · exact pairwise_reqTime_congr
          (fun j hj => hgj j (fun hh => hispec (hh ▸ hj))) Ht.specSorted
      · intro a ha b hb
        rcases List.mem_singleton.mp hb with rfl
        rw [hgj a (fun hh => hispec (hh ▸ ha)), hgi]
        exact Ht.specReq a ha
    · intro j hj
      have hj2 : j ∈ s.ledger := hj
      rw [hgj j (fun hh => hiled (hh ▸ hj2))]
      exact Ht.ledgerFin j hj2
    · show s.ledger.Pairwise (fun a b =>
        (getPat (setPat { s with specQueue := s.specQueue ++ [i] } i pw) a).finishTime ≤
        (getPat (setPat { s with specQueue := s.specQueue ++ [i] } i pw) b).finishTime)
      exact pairwise_finishTime_congr
        (fun j hj => hgj j (fun hh => hiled (hh ▸ hj))) Ht.ledgerSorted

theorem timeInv_enterStage {c : FifoConfig} {o : Oracle} {s : SimState} {i k : Nat}
    (hirad : i ∉ s.radQueue) (hispec : i ∉ s.specQueue) (hiled : i ∉ s.ledger)
    (hlen : i < s.pats.length)
    (Ht : TimeInv s) (hnn : NonnegOracle o) (hsc : 0 ≤ c.schedScale) :
    TimeInv (enterStage c o s i k) := by
  unfold enterStage
  split
  · exact timeInv_tryAcquireRad hirad hispec hiled hlen Ht hnn hsc
  · split
    · exact timeInv_tryAcquireSpec hirad hispec hiled hlen Ht hnn hsc
    · exact timeInv_sampleAndSchedule hirad hispec hiled Ht hnn hsc
theorem timeInv_grantW {c : FifoConfig} {s s2 : SimState} {i w k : Nat}
    (H : InvExcept c s i) (Ht : TimeInv s)
    (hpats : s2.pats = s.pats) (hnow : s2.now = s.now) (hqueue : s2.queue = s.queue)
    (hrq : (k = 0 ∧ s.radQueue = w :: s2.radQueue ∧ s2.specQueue = s.specQueue) ∨
           (k = 5 ∧ s.specQueue = w :: s2.specQueue ∧ s2.radQueue = s.radQueue))
    (hled : s2.ledger = s.ledger) :
    TimeInv (pushEv (setPat s2 w { getPat s w with
        waitAccum := (getPat s w).waitAccum + (s.now - (getPat s w).reqTime),
        phase := Phase.granted k }) s.now (EvTag.resume w)) := by
  set pw : MPatient := { getPat s w with
      waitAccum := (getPat s w).waitAccum + (s.now - (getPat s w).reqTime),
      phase := Phase.granted k } with hpw
  have hB : (s.radQueue = w :: s2.radQueue ∧ s2.specQueue = s.specQueue ∧
        (getPat s w).phase = Phase.waiting 0) ∨
      (s.specQueue = w :: s2.specQueue ∧ s2.radQueue = s.radQueue ∧
        (getPat s w).phase = Phase.waiting 5) := by
    rcases hrq with ⟨_, hq0, hq1⟩ | ⟨_, hq0, hq1⟩
    · exact Or.inl ⟨hq0, hq1, H.radPhase w (by rw [hq0]; exact List.mem_cons_self w _)⟩
    · exact Or.inr ⟨hq0, hq1, H.specPhase w (by rw [hq0]; exact List.mem_cons_self w _)⟩
  have hwled : w ∉ s.ledger := by
    intro hm
    have h0 := H.ledgerDone w hm
    rcases hB with ⟨_, _, hwph⟩ | ⟨_, _, hwph⟩ <;> rw [hwph] at h0 <;>
      exact absurd h0 (by simp)
  have hgj : ∀ j, j ≠ w →
      getPat (pushEv (setPat s2 w pw) s.now (EvTag.resume w)) j = getPat s j := by
    intro j hj
    rw [getPat_pushEv, getPat_setPat_ne pw (fun hh => hj hh.symm)]
    unfold getPat
    rw [hpats]
  refine ⟨?_, ?_, ?_, ?_, ?_, ?_, ?_⟩
  · show ∀ e ∈ s2.queue ++ [(⟨s.now, s2.nextSeq, EvTag.resume w⟩ : Ev)], s2.now ≤ e.time
    rw [hqueue, hnow]
    intro e he
    rcases List.mem_append.mp he with h | h
    · exact Ht.qTimes e h
    · rcases List.mem_singleton.mp h with rfl
      exact mrat_le_refl _
  · intro j hj
    have hj2 : j ∈ s2.radQueue := hj
    show (getPat (pushEv (setPat s2 w pw) s.now (EvTag.resume w)) j).reqTime ≤ s2.now
    rw [hnow]
    rcases hB with ⟨hq0, _, _⟩ | ⟨_, hq1, hwph⟩
    · have hjw : j ≠ w := by
        intro hh
        have h0 := H.radNodup
        rw [hq0] at h0
        exact (List.nodup_cons.mp h0).1 (hh ▸ hj2)
      rw [hgj j hjw]
      exact Ht.radReq j (by rw [hq0]; exact List.mem_cons_of_mem w hj2)
    · have hjs : j ∈ s.radQueue := by rw [hq1] at hj2; exact hj2
      have hjw : j ≠ w := by
        intro hh
        have h0 := H.radPhase j hjs
        rw [hh, hwph] at h0
        exact absurd h0 (by simp)
      rw [hgj j hjw]
      exact Ht.radReq j hjs
  · intro j hj
    have hj2 : j ∈ s2.specQueue := hj
    show (getPat (pushEv (setPat s2 w pw) s.now (EvTag.resume w)) j).reqTime ≤ s2.now
    rw [hnow]
    rcases hB with ⟨_, hq1, hwph⟩ | ⟨hq0, _, _⟩
    · have hjs : j ∈ s.specQueue := by rw [hq1] at hj2; exact hj2
      have hjw : j ≠ w := by
        intro hh
        have h0 := H.specPhase j hjs
        rw [hh, hwph] at h0
        exact absurd h0 (by simp)
      rw [hgj j hjw]
      exact Ht.specReq j hjs
    · have hjw : j ≠ w := by
        intro hh
        have h0 := H.specNodup
        rw [hq0] at h0
        exact (List.nodup_cons.mp h0).1 (hh ▸ hj2)
      rw [hgj j hjw]
      exact Ht.specReq j (by rw [hq0]; exact List.mem_cons_of_mem w hj2)
  · show s2.radQueue.Pairwise (fun a b =>
      (getPat (pushEv (setPat s2 w pw) s.now (EvTag.resume w)) a).reqTime ≤
      (getPat (pushEv (setPat s2 w pw) s.now (EvTag.resume w)) b).reqTime)
    rcases hB with ⟨hq0, _, _⟩ | ⟨_, hq1, hwph⟩
    · have h0 := Ht.radSorted
      rw [hq0] at h0
      have hnd := H.radNodup
      rw [hq0] at hnd
      refine pairwise_reqTime_congr ?_ (List.pairwise_cons.mp h0).2
      intro j hj
      exact hgj j (fun hh => (List.nodup_cons.mp hnd).1 (hh ▸ hj))
    · rw [hq1]
      refine pairwise_reqTime_congr ?_ Ht.radSorted
      intro j hj
      refine hgj j ?_
      intro hh
      have h0 := H.radPhase j hj
      rw [hh, hwph] at h0
      exact absurd h0 (by simp)
  · show s2.specQueue.Pairwise (fun a b =>
      (getPat (pushEv (setPat s2 w pw) s.now (EvTag.resume w)) a).reqTime ≤
      (getPat (pushEv (setPat s2 w pw) s.now (EvTag.resume w)) b).reqTime)
    rcases hB with ⟨_, hq1, hwph⟩ | ⟨hq0, _, _⟩
    · rw [hq1]
      refine pairwise_reqTime_congr ?_ Ht.specSorted
      intro j hj
      refine hgj j ?_
      intro hh
      have h0 := H.specPhase j hj
      rw [hh, hwph] at h0
      exact absurd h0 (by simp)
    · have h0 := Ht.specSorted
      rw [hq0] at h0
      have hnd := H.specNodup
      rw [hq0] at hnd
      refine pairwise_reqTime_congr ?_ (List.pairwise_cons.mp h0).2
      intro j hj
      exact hgj j (fun hh => (List.nodup_cons.mp hnd).1 (hh ▸ hj))
  · intro j hj
    have hj2 : j ∈ s.ledger := by
      have h0 : j ∈ s2.ledger := hj
      rw [hled] at h0
      exact h0
    show (getPat (pushEv (setPat s2 w pw) s.now (EvTag.resume w)) j).finishTime ≤ s2.now
    rw [hnow, hgj j (fun hh => hwled (hh ▸ hj2))]
    exact Ht.ledgerFin j hj2
  · show s2.ledger.Pairwise (fun a b =>
      (getPat (pushEv (setPat s2 w pw) s.now (EvTag.resume w)) a).finishTime ≤
      (getPat (pushEv (setPat s2 w pw) s.now (EvTag.resume w)) b).finishTime)
    rw [hled]
    refine pairwise_finishTime_congr ?_ Ht.ledgerSorted
    intro j hj
    exact hgj j (fun hh => hwled (hh ▸ hj))

theorem timeInv_releaseRad {c : FifoConfig} {s : SimState} {i : Nat}
    (H : InvExcept c s i) (Ht : TimeInv s) : TimeInv (releaseRad c s i) := by
  unfold releaseRad
  split
  · exact ⟨Ht.qTimes, Ht.radReq, Ht.specReq, Ht.radSorted, Ht.specSorted,
      Ht.ledgerFin, Ht.ledgerSorted⟩
  · next w rest hq =>
      split
      · exact timeInv_grantW H Ht rfl rfl rfl (Or.inl ⟨rfl, hq, rfl⟩) rfl
      · exact ⟨Ht.qTimes, Ht.radReq, Ht.specReq, Ht.radSorted, Ht.specSorted,
          Ht.ledgerFin, Ht.ledgerSorted⟩

theorem timeInv_releaseSpec {c : FifoConfig} {s : SimState} {i : Nat}
    (H : InvExcept c s i) (Ht : TimeInv s) : TimeInv (releaseSpec c s i) := by
  unfold releaseSpec
  split
  · exact ⟨Ht.qTimes, Ht.radReq, Ht.specReq, Ht.radSorted, Ht.specSorted,
      Ht.ledgerFin, Ht.ledgerSorted⟩
  · next w rest hq =>
      split
      · exact timeInv_grantW H Ht rfl rfl rfl (Or.inr ⟨rfl, hq, rfl⟩) rfl
      · exact ⟨Ht.qTimes, Ht.radReq, Ht.specReq, Ht.radSorted, Ht.specSorted,
          Ht.ledgerFin, Ht.ledgerSorted⟩

theorem timeInv_finishCase {s : SimState} {i : Nat}
    (hirad : i ∉ s.radQueue) (hispec : i ∉ s.specQueue) (hiled : i ∉ s.ledger)
    (hlen : i < s.pats.length)
    (Ht : TimeInv s) : TimeInv (finishCase s i) := by
  unfold finishCase
  set pd : MPatient := { getPat s i with
      totalLatency := s.now - (getPat s i).startTime,
      finishTime := s.now, phase := Phase.done } with hpd
  have hgj : ∀ j, j ≠ i → getPat (setPat s i pd) j = getPat s j :=
    fun j hj => getPat_setPat_ne pd (fun hh => hj hh.symm)
  have hgi : getPat (setPat s i pd) i = pd := getPat_setPat_same pd hlen
  refine ⟨Ht.qTimes, ?_, ?_, ?_, ?_, ?_, ?_⟩
  · intro j hj
    have hj2 : j ∈ s.radQueue := hj
    show (getPat (setPat s i pd) j).reqTime ≤ s.now
    rw [hgj j (fun hh => hirad (hh ▸ hj2))]
    exact Ht.radReq j hj2
  · intro j hj
    have hj2 : j ∈ s.specQueue := hj
    show (getPat (setPat s i pd) j).reqTime ≤ s.now
    rw [hgj j (fun hh => hispec (hh ▸ hj2))]
    exact Ht.specReq j hj2
  · show s.radQueue.Pairwise (fun a b =>
      (getPat (setPat s i pd) a).reqTime ≤ (getPat (setPat s i pd) b).reqTime)
    exact pairwise_reqTime_congr
      (fun j hj => hgj j (fun hh => hirad (hh ▸ hj))) Ht.radSorted
  · show s.specQueue.Pairwise (fun a b =>
      (getPat (setPat s i pd) a).reqTime ≤ (getPat (setPat s i pd) b).reqTime)
    exact pairwise_reqTime_congr
      (fun j hj => hgj j (fun hh => hispec (hh ▸ hj))) Ht.specSorted
  · intro j hj
    have hj2 : j ∈ s.ledger ++ [i] := hj
    show (getPat (setPat s i pd) j).finishTime ≤ s.now
    rcases List.mem_append.mp hj2 with h | h
    · rw [hgj j (fun hh => hiled (hh ▸ h))]
      exact Ht.ledgerFin j h
    · rcases List.mem_singleton.mp h with rfl
      rw [hgi]
      exact mrat_le_refl _
  · show (s.ledger ++ [i]).Pairwise (fun a b =>
      (getPat (setPat s i pd) a).finishTime ≤ (getPat (setPat s i pd) b).finishTime)
    rw [List.pairwise_append]
    refine ⟨?_, List.pairwise_singleton _ _, ?_⟩
    · exact pairwise_finishTime_congr
        (fun j hj => hgj j (fun hh => hiled (hh ▸ hj))) Ht.ledgerSorted
    · intro a ha b hb
      rcases List.mem_singleton.mp hb with rfl
      rw [hgj a (fun hh => hiled (hh ▸ ha)), hgi]
      exact Ht.ledgerFin a ha

theorem timeInv_fireStep {c : FifoConfig} {o : Oracle} {s : SimState} {i k : Nat} {d : MRat}
    (Hmid : InvExcept c (recordStage s i k d) i) (Ht : TimeInv s)
    (hnn : NonnegOracle o) (hsc : 0 ≤ c.schedScale) :
    TimeInv (fireStep c o s i k d) := by
  have hirad : i ∉ s.radQueue := Hmid.iRad
  have hispec : i ∉ s.specQueue := Hmid.iSpec
  have hiled : i ∉ s.ledger := Hmid.iLedger
  have hlen : i < s.pats.length := by
    have h0 : i < (recordStage s i k d).pats.length := by
      rw [Hmid.patsLen]
      exact Hmid.iLt
    have h1 : (recordStage s i k d).pats.length = s.pats.length := by
      show (s.pats.set i _).length = s.pats.length
      rw [List.length_set]
    rw [h1] at h0
    exact h0
  have Htm : TimeInv (recordStage s i k d) := by
    unfold recordStage
    exact timeInv_setPat_out _ hirad hispec hiled Ht
  unfold fireStep
  split
  · exact timeInv_finishCase Hmid.iRad Hmid.iSpec Hmid.iLedger
      (by rw [Hmid.patsLen]; exact Hmid.iLt) Htm
  · split
    · have Hrel := invExcept_releaseRad Hmid
      exact timeInv_enterStage Hrel.iRad Hrel.iSpec Hrel.iLedger
        (by rw [Hrel.patsLen]; exact Hrel.iLt)
        (timeInv_releaseRad Hmid Htm) hnn hsc
    · split
      · have Hrel := invExcept_releaseSpec Hmid
        exact timeInv_enterStage Hrel.iRad Hrel.iSpec Hrel.iLedger
          (by rw [Hrel.patsLen]; exact Hrel.iLt)
          (timeInv_releaseSpec Hmid Htm) hnn hsc
      · exact timeInv_enterStage Hmid.iRad Hmid.iSpec Hmid.iLedger
          (by rw [Hmid.patsLen]; exact Hmid.iLt) Htm hnn hsc
/-- One scheduler step preserves the time-ordering invariant (given
non-negative oracle draws and a non-negative Weibull scale). -/
theorem timeInv_stepRel {c : FifoConfig} {o : Oracle} {s s' : SimState}
    (H : SimInv c s) (Ht : TimeInv s)
    (hnn : NonnegOracle o) (hsc : 0 ≤ c.schedScale)
    (h : StepRel c o s s') : TimeInv s' := by
  obtain ⟨herr, e, hmem, hmin, hs'⟩ := h
  subst hs'
  obtain ⟨t, sq, tag⟩ := e
  have hte : s.now ≤ t := Ht.qTimes _ hmem
  have Ht1 : TimeInv { s with
      queue := s.queue.erase (⟨t, sq, tag⟩ : Ev),
      now := (⟨t, sq, tag⟩ : Ev).time } :=
    ⟨fun x hx => evLeB_time (hmin x (List.mem_of_mem_erase hx)),
     fun j hj => mrat_le_trans (Ht.radReq j hj) hte,
     fun j hj => mrat_le_trans (Ht.specReq j hj) hte,
     Ht.radSorted, Ht.specSorted,
     fun j hj => mrat_le_trans (Ht.ledgerFin j hj) hte,
     Ht.ledgerSorted⟩
  have hpn : ∀ p : Nat, evPid (⟨t, sq, tag⟩ : Ev) = p → p < s.pats.length := by
    intro p hp
    rw [H.patsLen]
    rw [← hp]
    exact H.pidBound _ hmem
  cases tag with
  | start p =>
      have hp2 : patInv s p := H.pat herr p (H.pidBound _ hmem)
      rw [exec_start]
      split
      · next hph =>
          have hph2 : (getPat s p).phase = Phase.idle := hph
          have hirad : p ∉ s.radQueue := by
            intro hm
            have h0 := H.radPhase p hm
            rw [hph2] at h0
            exact absurd h0 (by simp)
          have hispec : p ∉ s.specQueue := by
            intro hm
            have h0 := H.specPhase p hm
            rw [hph2] at h0
            exact absurd h0 (by simp)
          have hiled : p ∉ s.ledger := by
            intro hm
            have h0 := H.ledgerDone p hm
            rw [hph2] at h0
            exact absurd h0 (by simp)
          have hplen : p < s.pats.length := hpn p rfl
          refine timeInv_enterStage hirad hispec hiled ?_
            (timeInv_setPat_out _ hirad hispec hiled Ht1) hnn hsc
          show p < (s.pats.set p _).length
          rw [List.length_set]
          exact hplen
      · exact Ht1
  | resume p =>
      have hp2 : patInv s p := H.pat herr p (H.pidBound _ hmem)
      rw [exec_resume]
      split
      · next k hph =>
          have hph2 : (getPat s p).phase = Phase.granted k := hph
          have hirad : p ∉ s.radQueue := by
            intro hm
            have h0 := H.radPhase p hm
            rw [hph2] at h0
            exact absurd h0 (by simp)
          have hispec : p ∉ s.specQueue := by
            intro hm
            have h0 := H.specPhase p hm
            rw [hph2] at h0
            exact absurd h0 (by simp)
          have hiled : p ∉ s.ledger := by
            intro hm
            have h0 := H.ledgerDone p hm
            rw [hph2] at h0
            exact absurd h0 (by simp)
          exact timeInv_sampleAndSchedule hirad hispec hiled Ht1 hnn hsc
      · exact Ht1
  | fire p =>
      have hp2 : patInv s p := H.pat herr p (H.pidBound _ hmem)
      rw [exec_fire]
      split
      · next k d hph =>
          have hph2 : (getPat s p).phase = Phase.inService k d := hph
          have hp3 := hp2
          unfold patInv at hp3
          rw [hph2] at hp3
          obtain ⟨sq2, hq2⟩ := hp3
          have heq2 : (⟨t, sq, EvTag.fire p⟩ : Ev) =
              ⟨(getPat s p).startTime + (getPat s p).waitAccum + sumDur (getPat s p) + d, sq2,
                EvTag.fire p⟩ :=
            eq_of_evsFor_singleton hq2 hmem rfl
          have hsng : evsFor p s.queue = [(⟨t, sq, EvTag.fire p⟩ : Ev)] := by
            rw [hq2, ← heq2]
          have ht : t = (getPat s p).startTime + (getPat s p).waitAccum + sumDur (getPat s p) + d :=
            congrArg Ev.time heq2
          have hirad : p ∉ s.radQueue := by
            intro hm
            have h0 := H.radPhase p hm
            rw [hph2] at h0
            exact absurd h0 (by simp)
          have hispec : p ∉ s.specQueue := by
            intro hm
            have h0 := H.specPhase p hm
            rw [hph2] at h0
            exact absurd h0 (by simp)
          have hiled : p ∉ s.ledger := by
            intro hm
            have h0 := H.ledgerDone p hm
            rw [hph2] at h0
            exact absurd h0 (by simp)
          have hacct : (getPat s p).startTime + (getPat s p).waitAccum +
              sumDur { getPat s p with
                stageTimes := (getPat s p).stageTimes ++ [(stageName k, d)] } = t := by
            rw [sumDur_record, ht]
            exact mrat_add_shift _ _ _ _
          refine timeInv_fireStep ?_ Ht1 hnn hsc
          unfold recordStage
          exact invExcept_popSet H herr
            (show evPid (⟨t, sq, EvTag.fire p⟩ : Ev) = p from rfl)
            hmem hsng hirad hispec hiled hacct rfl
      · exact Ht1
theorem mrat_cast_div100_nonneg (i : Nat) : (0 : MRat) ≤ (Nat.cast i : MRat) / 100 := by
  rw [MRat.le_def, MRat.toRat_zero, MRat.toRat_div, MRat.toRat_natCast, MRat.toRat_ofNat]
  positivity

/-- The time-ordering invariant holds at the initial state. -/
theorem timeInv_init (n : Nat) (o : Oracle) : TimeInv (initState n o) := by
  refine ⟨?_, ?_, ?_, ?_, ?_, ?_, ?_⟩
  · intro e he
    obtain ⟨j, hj, rfl⟩ := List.mem_map.mp he
    exact mrat_cast_div100_nonneg j
  · intro j hj
    exact absurd hj (List.not_mem_nil _)
  · intro j hj
    exact absurd hj (List.not_mem_nil _)
  · exact List.Pairwise.nil
  · exact List.Pairwise.nil
  · intro j hj
    exact absurd hj (List.not_mem_nil _)
  · exact List.Pairwise.nil

/-- Both invariants hold at every reachable state. -/
theorem invs_reach {c : FifoConfig} {o : Oracle} {s s' : SimState}
    (H : SimInv c s) (Ht : TimeInv s)
    (hnn : NonnegOracle o) (hsc : 0 ≤ c.schedScale)
    (h : Reach c o s s') : SimInv c s' ∧ TimeInv s' := by
  induction h with
  | refl => exact ⟨H, Ht⟩
  | tail _ hstep ih => exact ⟨simInv_stepRel ih.1 hstep, timeInv_stepRel ih.1 ih.2 hnn hsc hstep⟩
theorem mrat_not_lt {a b : MRat} (h : a ≤ b) : ¬ b < a := by
  rw [MRat.le_def] at h
  rw [MRat.lt_def]
  exact not_lt_of_le h

theorem mrat_inv_pos_nonneg {a : MRat} (h : 0 < a) : 0 ≤ 1 / a := by
  rw [MRat.lt_def, MRat.toRat_zero] at h
  rw [MRat.le_def, MRat.toRat_zero, MRat.toRat_div, MRat.toRat_one]
  positivity

/-- On a valid configuration no numpy parameter check can fail: every stage
sample succeeds. -/
theorem sampleStage_ok {c : FifoConfig} {o : Oracle} {ctr k : Nat}
    (hv : ValidFifoConfig c) : ∀ e2, (sampleStage c o ctr k).1 ≠ Except.error e2 := by
  obtain ⟨hl, hrs, hps, hpc, hm1, hm2, hne, hss⟩ := hv
  intro e2 hcon
  unfold sampleStage at hcon
  split at hcon
  · unfold npUniform at hcon
    simp only [Except.map] at hcon
    exact Except.noConfusion hcon
  · split at hcon
    · unfold npExponential at hcon
      split at hcon
      · next hlt => exact absurd hlt (mrat_not_lt (mrat_inv_pos_nonneg hl))
      · exact Except.noConfusion hcon
    · split at hcon
      · unfold npNormal at hcon
        split at hcon
        · next hlt => exact absurd hlt (mrat_not_lt hrs)
        · simp only [Except.map] at hcon
          exact Except.noConfusion hcon
      · split at hcon
        · unfold npGamma at hcon
          split at hcon
          · next hlt => exact absurd hlt (mrat_not_lt hps)
          · split at hcon
            · next hlt => exact absurd hlt (mrat_not_lt hpc)
            · exact Except.noConfusion hcon
        · split at hcon
          · unfold npTriangular at hcon
            split at hcon
            · next hlt => exact absurd hlt (mrat_not_lt hm1)
            · split at hcon
              · next hlt => exact absurd hlt (mrat_not_lt hm2)
              · exact Except.noConfusion hcon
          · split at hcon
            · unfold npWeibull at hcon
              split at hcon
              · next hlt => exact absurd hlt (mrat_not_lt hss)
              · simp only [Except.map] at hcon
                exact Except.noConfusion hcon
            · split at hcon
              · unfold npUniform at hcon
                exact Except.noConfusion hcon
              · exact Except.noConfusion hcon

theorem err_sampleAndSchedule {c : FifoConfig} {o : Oracle} {s : SimState} {i k : Nat}
    (hv : ValidFifoConfig c) (he : s.err = none) :
    (sampleAndSchedule c o s i k).err = none := by
  cases hs : sampleStage c o s.drawCtr k with
  | mk res ctr =>
    cases res with
    | error e =>
        have h0 : (sampleStage c o s.drawCtr k).1 = Except.error e := by rw [hs]
        exact absurd h0 (sampleStage_ok hv e)
    | ok d =>
        have hstate : sampleAndSchedule c o s i k =
            pushEv (setPat { s with drawCtr := ctr } i
              { getPat s i with phase := .inService k d }) (s.now + d) (EvTag.fire i) := by
          unfold sampleAndSchedule
          rw [hs]
          rfl
        rw [hstate]
        exact he

theorem err_tryAcquireRad {c : FifoConfig} {o : Oracle} {s : SimState} {i : Nat}
    (hv : ValidFifoConfig c) (he : s.err = none) :
    (tryAcquireRad c o s i).err = none := by
  unfold tryAcquireRad
  split
  · exact err_sampleAndSchedule hv he
  · exact he

theorem err_tryAcquireSpec {c : FifoConfig} {o : Oracle} {s : SimState} {i : Nat}
    (hv : ValidFifoConfig c) (he : s.err = none) :
    (tryAcquireSpec c o s i).err = none := by
  unfold tryAcquireSpec
  split
  · exact err_sampleAndSchedule hv he
  · exact he

theorem err_enterStage {c : FifoConfig} {o : Oracle} {s : SimState} {i k : Nat}
    (hv : ValidFifoConfig c) (he : s.err = none) :
    (enterStage c o s i k).err = none := by
  unfold enterStage
  split
  · exact err_tryAcquireRad hv he
  · split
    · exact err_tryAcquireSpec hv he
    · exact err_sampleAndSchedule hv he

theorem err_releaseRad {c : FifoConfig} {s : SimState} {i : Nat}
    (he : s.err = none) : (releaseRad c s i).err = none := by
  unfold releaseRad
  split
  · exact he
  · split
    · exact he
    · exact he

theorem err_releaseSpec {c : FifoConfig} {s : SimState} {i : Nat}
    (he : s.err = none) : (releaseSpec c s i).err = none := by
  unfold releaseSpec
  split
  · exact he
  · split
    · exact he
    · exact he

theorem err_fireStep {c : FifoConfig} {o : Oracle} {s : SimState} {i k : Nat} {d : MRat}
    (hv : ValidFifoConfig c) (he : s.err = none) :
    (fireStep c o s i k d).err = none := by
  unfold fireStep
  split
  · exact he
  · split
    · exact err_enterStage hv (err_releaseRad he)
    · split
      · exact err_enterStage hv (err_releaseSpec he)
      · exact err_enterStage hv he

/-- On a valid configuration a scheduler step never raises a sampling
error. -/
theorem err_stepRel {c : FifoConfig} {o : Oracle} {s s' : SimState}
    (hv : ValidFifoConfig c) (h : StepRel c o s s') : s'.err = none := by
  obtain ⟨herr, e, hmem, hmin, hs'⟩ := h
  subst hs'
  obtain ⟨t, sq, tag⟩ := e
  cases tag with
  | start p =>
      rw [exec_start]
      split
      · exact err_enterStage hv herr
      · exact herr
  | resume p =>
      rw [exec_resume]
      split
      · exact err_sampleAndSchedule hv herr
      · exact herr
  | fire p =>
      rw [exec_fire]
      split
      · exact err_fireStep hv herr
      · exact herr

/-- On a valid configuration no reachable state of a run is halted by a
sampling error. -/
theorem err_reach {c : FifoConfig} {o : Oracle} {s s' : SimState}
    (hv : ValidFifoConfig c) (he : s.err = none) (h : Reach c o s s') : s'.err = none := by
  induction h with
  | refl => exact he
  | tail _ hstep _ => exact err_stepRel hv hstep
theorem frame_sampleAndSchedule {c : FifoConfig} {o : Oracle} {s : SimState} {i k j : Nat}
    (hj : j ≠ i) :
    getPat (sampleAndSchedule c o s i k) j = getPat s j ∧
      (sampleAndSchedule c o s i k).ledger = s.ledger := by
  cases hs : sampleStage c o s.drawCtr k with
  | mk res ctr =>
    cases res with
    | error e =>
        have hstate : sampleAndSchedule c o s i k = { s with err := some e, drawCtr := ctr } := by
          unfold sampleAndSchedule
          rw [hs]
        rw [hstate]
        exact ⟨rfl, rfl⟩
    | ok d =>
        have hstate : sampleAndSchedule c o s i k =
            pushEv (setPat { s with drawCtr := ctr } i
              { getPat s i with phase := .inService k d }) (s.now + d) (EvTag.fire i) := by
          unfold sampleAndSchedule
          rw [hs]
          rfl
        rw [hstate]
        exact ⟨(getPat_pushEv _ _ _ j).trans
          (getPat_setPat_ne _ (fun hh => hj hh.symm)), rfl⟩

theorem frame_tryAcquireRad {c : FifoConfig} {o : Oracle} {s : SimState} {i j : Nat}
    (hj : j ≠ i) :
    getPat (tryAcquireRad c o s i) j = getPat s j ∧
      (tryAcquireRad c o s i).ledger = s.ledger := by
  unfold tryAcquireRad
  split
  · exact ⟨(frame_sampleAndSchedule hj).1, (frame_sampleAndSchedule hj).2⟩
  · exact ⟨getPat_setPat_ne _ (fun hh => hj hh.symm), rfl⟩

theorem frame_tryAcquireSpec {c : FifoConfig} {o : Oracle} {s : SimState} {i j : Nat}
    (hj : j ≠ i) :
    getPat (tryAcquireSpec c o s i) j = getPat s j ∧
      (tryAcquireSpec c o s i).ledger = s.ledger := by
  unfold tryAcquireSpec
  split
  · exact ⟨(frame_sampleAndSchedule hj).1, (frame_sampleAndSchedule hj).2⟩
  · exact ⟨getPat_setPat_ne _ (fun hh => hj hh.symm), rfl⟩

theorem frame_enterStage {c : FifoConfig} {o : Oracle} {s : SimState} {i k j : Nat}
    (hj : j ≠ i) :
    getPat (enterStage c o s i k) j = getPat s j ∧
      (enterStage c o s i k).ledger = s.ledger := by
  unfold enterStage
  split
  · exact frame_tryAcquireRad hj
  · split
    · exact frame_tryAcquireSpec hj
    · exact frame_sampleAndSchedule hj

theorem frame_releaseRad {c : FifoConfig} {s : SimState} {i j : Nat}
    (hjq : j ∉ s.radQueue) :
    getPat (releaseRad c s i) j = getPat s j ∧ (releaseRad c s i).ledger = s.ledger := by
  unfold releaseRad
  split
  · exact ⟨rfl, rfl⟩
  · next w rest hq =>
      split
      · have hjw : j ≠ w := by
          intro hh
          exact hjq (by rw [hq, hh]; exact List.mem_cons_self w rest)
        exact ⟨(getPat_pushEv _ _ _ j).trans
          (getPat_setPat_ne _ (fun hh => hjw hh.symm)), rfl⟩
      · exact ⟨rfl, rfl⟩

theorem frame_releaseSpec {c : FifoConfig} {s : SimState} {i j : Nat}
    (hjq : j ∉ s.specQueue) :
    getPat (releaseSpec c s i) j = getPat s j ∧ (releaseSpec c s i).ledger = s.ledger := by
  unfold releaseSpec
  split
  · exact ⟨rfl, rfl⟩
  · next w rest hq =>
      split
      · have hjw : j ≠ w := by
          intro hh
          exact hjq (by rw [hq, hh]; exact List.mem_cons_self w rest)
        exact ⟨(getPat_pushEv _ _ _ j).trans
          (getPat_setPat_ne _ (fun hh => hjw hh.symm)), rfl⟩
      · exact ⟨rfl, rfl⟩

theorem frame_fireStep {c : FifoConfig} {o : Oracle} {s : SimState} {i k j : Nat} {d : MRat}
    (hj : j ≠ i) (hjrad : j ∉ s.radQueue) (hjspec : j ∉ s.specQueue) :
    getPat (fireStep c o s i k d) j = getPat s j ∧
      (j ∈ s.ledger → j ∈ (fireStep c o s i k d).ledger) := by
  have hrec : getPat (recordStage s i k d) j = getPat s j :=
    getPat_setPat_ne _ (fun hh => hj hh.symm)
  unfold fireStep
  split
  · constructor
    · show getPat (finishCase (recordStage s i k d) i) j = getPat s j
      refine Eq.trans ?_ hrec
      exact getPat_setPat_ne _ (fun hh => hj hh.symm)
    · intro hm
      show j ∈ (recordStage s i k d).ledger ++ [i]
      exact List.mem_append_left _ hm
  · split
    · have h1 := frame_enterStage (c := c) (o := o)
        (s := releaseRad c (recordStage s i k d) i) (i := i) (k := k + 1) hj
      have h2 := frame_releaseRad (c := c) (s := recordStage s i k d) (i := i)
        (j := j) hjrad
      refine ⟨h1.1.trans (h2.1.trans hrec), ?_⟩
      intro hm
      rw [h1.2, h2.2]
      exact hm
    · split
      · have h1 := frame_enterStage (c := c) (o := o)
          (s := releaseSpec c (recordStage s i k d) i) (i := i) (k := k + 1) hj
        have h2 := frame_releaseSpec (c := c) (s := recordStage s i k d) (i := i)
          (j := j) hjspec
        refine ⟨h1.1.trans (h2.1.trans hrec), ?_⟩
        intro hm
        rw [h1.2, h2.2]
        exact hm
      · have h1 := frame_enterStage (c := c) (o := o)
          (s := recordStage s i k d) (i := i) (k := k + 1) hj
        refine ⟨h1.1.trans hrec, ?_⟩
        intro hm
        rw [h1.2]
        exact hm
/-- A completed case is frozen: no scheduler step changes its record, and it
stays in the ledger. -/
theorem done_frame_stepRel {c : FifoConfig} {o : Oracle} {s s' : SimState} {j : Nat}
    (H : SimInv c s) (h : StepRel c o s s')
    (hjd : (getPat s j).phase = Phase.done) :
    getPat s' j = getPat s j ∧ (j ∈ s.ledger → j ∈ s'.ledger) := by
  obtain ⟨herr, e, hmem, hmin, hs'⟩ := h
  subst hs'
  have hjrad : j ∉ s.radQueue := by
    intro hm
    have h0 := H.radPhase j hm
    rw [hjd] at h0
    exact absurd h0 (by simp)
  have hjspec : j ∉ s.specQueue := by
    intro hm
    have h0 := H.specPhase j hm
    rw [hjd] at h0
    exact absurd h0 (by simp)
  have hpid : evPid e ≠ j := by
    intro hh
    by_cases hjn : j < s.nPat
    · have hp := H.pat herr j hjn
      unfold patInv at hp
      rw [hjd] at hp
      have hin : e ∈ evsFor j s.queue := mem_evsFor hmem hh
      rw [hp.1] at hin
      exact absurd hin (List.not_mem_nil _)
    · exact hjn (hh ▸ H.pidBound e hmem)
  obtain ⟨t, sq, tag⟩ := e
  cases tag with
  | start p =>
      rw [exec_start]
      split
      · have hne : j ≠ p := fun hh => hpid hh.symm
        constructor
        · exact Eq.trans (frame_enterStage hne).1 (getPat_setPat_ne _ hpid)
        · intro hm
          rw [(frame_enterStage hne).2]
          exact hm
      · exact ⟨rfl, fun hm => hm⟩
  | resume p =>
      rw [exec_resume]
      split
      · have hne : j ≠ p := fun hh => hpid hh.symm
        exact ⟨(frame_sampleAndSchedule hne).1, fun hm => by
          rw [(frame_sampleAndSchedule hne).2]; exact hm⟩
      · exact ⟨rfl, fun hm => hm⟩
  | fire p =>
      rw [exec_fire]
      split
      · have hne : j ≠ p := fun hh => hpid hh.symm
        exact frame_fireStep hne hjrad hjspec
      · exact ⟨rfl, fun hm => hm⟩

/-- A completed case is frozen along every later reachable state. -/
theorem done_frame_reach {c : FifoConfig} {o : Oracle} {s s' : SimState} {j : Nat}
    (H : SimInv c s) (h : Reach c o s s')
    (hjd : (getPat s j).phase = Phase.done) :
    getPat s' j = getPat s j ∧ (j ∈ s.ledger → j ∈ s'.ledger) := by
  induction h with
  | refl => exact ⟨rfl, fun hm => hm⟩
  | tail hr hstep ih =>
      have Hb := simInv_reach H hr
      have hd2 := ih.1
      have hstep2 := done_frame_stepRel Hb hstep (by rw [hd2]; exact hjd)
      exact ⟨hstep2.1.trans hd2, fun hm => hstep2.2 (ih.2 hm)⟩
theorem npat_sampleAndSchedule {c : FifoConfig} {o : Oracle} {s : SimState} {i k : Nat} :
    (sampleAndSchedule c o s i k).nPat = s.nPat := by
  unfold sampleAndSchedule
  split
  · rfl
  · rfl

theorem npat_enterStage {c : FifoConfig} {o : Oracle} {s : SimState} {i k : Nat} :
    (enterStage c o s i k).nPat = s.nPat := by
  unfold enterStage tryAcquireRad tryAcquireSpec
  split
  · split
    · exact npat_sampleAndSchedule
    · rfl
  · split
    · split
      · exact npat_sampleAndSchedule
      · rfl
    · exact npat_sampleAndSchedule

theorem npat_releaseRad {c : FifoConfig} {s : SimState} {i : Nat} :
    (releaseRad c s i).nPat = s.nPat := by
  unfold releaseRad
  split
  · rfl
  · split
    · rfl
    · rfl

theorem npat_releaseSpec {c : FifoConfig} {s : SimState} {i : Nat} :
    (releaseSpec c s i).nPat = s.nPat := by
  unfold releaseSpec
  split
  · rfl
  · split
    · rfl
    · rfl

theorem npat_fireStep {c : FifoConfig} {o : Oracle} {s : SimState} {i k : Nat} {d : MRat} :
    (fireStep c o s i k d).nPat = s.nPat := by
  unfold fireStep
  split
  · rfl
  · split
    · exact npat_enterStage.trans npat_releaseRad
    · split
      · exact npat_enterStage.trans npat_releaseSpec
      · exact npat_enterStage

theorem ledger_sampleAndSchedule {c : FifoConfig} {o : Oracle} {s : SimState} {i k : Nat} :
    (sampleAndSchedule c o s i k).ledger = s.ledger := by
  unfold sampleAndSchedule
  split
  · rfl
  · rfl

theorem ledger_enterStage {c : FifoConfig} {o : Oracle} {s : SimState} {i k : Nat} :
    (enterStage c o s i k).ledger = s.ledger := by
  unfold enterStage tryAcquireRad tryAcquireSpec
  split
  · split
    · exact ledger_sampleAndSchedule
    · rfl
  · split
    · split
      · exact ledger_sampleAndSchedule
      · rfl
    · exact ledger_sampleAndSchedule

theorem ledger_releaseRad {c : FifoConfig} {s : SimState} {i : Nat} :
    (releaseRad c s i).ledger = s.ledger := by
  unfold releaseRad
  split
  · rfl
  · split
    · rfl
    · rfl

theorem ledger_releaseSpec {c : FifoConfig} {s : SimState} {i : Nat} :
    (releaseSpec c s i).ledger = s.ledger := by
  unfold releaseSpec
  split
  · rfl
  · split
    · rfl
    · rfl

theorem ledger_fireStep {c : FifoConfig} {o : Oracle} {s : SimState} {i k : Nat} {d : MRat} :
    (fireStep c o s i k d).ledger = s.ledger ∨
      (fireStep c o s i k d).ledger = s.ledger ++ [i] := by
  unfold fireStep
  split
  · exact Or.inr rfl
  · split
    · exact Or.inl (ledger_enterStage.trans ledger_releaseRad)
    · split
      · exact Or.inl (ledger_enterStage.trans ledger_releaseSpec)
      · exact Or.inl ledger_enterStage

/-- One step keeps the cohort size and only ever appends the fired case to
the ledger. -/
theorem npat_ledger_stepRel {c : FifoConfig} {o : Oracle} {s s' : SimState}
    (H : SimInv c s) (h : StepRel c o s s') :
    s'.nPat = s.nPat ∧ ∀ j ∈ s'.ledger, j ∈ s.ledger ∨ j < s.nPat := by
  obtain ⟨herr, e, hmem, hmin, hs'⟩ := h
  subst hs'
  obtain ⟨t, sq, tag⟩ := e
  cases tag with
  | start p =>
      rw [exec_start]
      split
      · refine ⟨npat_enterStage, ?_⟩
        intro j hj
        rw [ledger_enterStage] at hj
        exact Or.inl hj
      · exact ⟨rfl, fun j hj => Or.inl hj⟩
  | resume p =>
      rw [exec_resume]
      split
      · refine ⟨npat_sampleAndSchedule, ?_⟩
        intro j hj
        rw [ledger_sampleAndSchedule] at hj
        exact Or.inl hj
      · exact ⟨rfl, fun j hj => Or.inl hj⟩
  | fire p =>
      rw [exec_fire]
      split
      · next k d hph =>
          refine ⟨npat_fireStep, ?_⟩
          intro j hj
          rcases ledger_fireStep with hl | hl
          · rw [hl] at hj
            exact Or.inl hj
          · rw [hl] at hj
            rcases List.mem_append.mp hj with h1 | h1
            · exact Or.inl h1
            · rcases List.mem_singleton.mp h1 with rfl
              exact Or.inr (H.pidBound _ hmem)
      · exact ⟨rfl, fun j hj => Or.inl hj⟩
/-- Every reachable state keeps the cohort size of the initial state, and its
ledger holds only case ids of the cohort. -/
theorem ledgerBound_reach {c : FifoConfig} {o : Oracle} {n : Nat} {s : SimState}
    (hr : Reach c o (initState n o) s) :
    s.nPat = n ∧ ∀ j ∈ s.ledger, j < n := by
  induction hr with
  | refl => exact ⟨rfl, fun j hj => absurd hj (List.not_mem_nil _)⟩
  | tail hrr hstep ih =>
      have Hb := simInv_reach (simInv_init c n o) hrr
      have hs := npat_ledger_stepRel Hb hstep
      refine ⟨hs.1.trans ih.1, ?_⟩
      intro j hj
      rcases hs.2 j hj with h1 | h1
      · exact ih.2 j h1
      · rw [ih.1] at h1
        exact h1
/-- Determinism of the scheduler: from a state satisfying the run invariant,
all complete runs end in the same state (the minimal pending event is unique
by the distinctness of event sequence ids). -/
theorem reach_terminal_unique_inv {c : FifoConfig} {o : Oracle} :
    ∀ {s s1 s2 : SimState}, SimInv c s →
    Reach c o s s1 → Reach c o s s2 →
    Terminal c o s1 → Terminal c o s2 → s1 = s2 := by
  intro s s1 s2 hinv r1
  induction r1 using Relation.ReflTransGen.head_induction_on generalizing s2 with
  | refl =>
      intro r2 t1 t2
      rcases Relation.ReflTransGen.cases_head r2 with h | ⟨t, ht, -⟩
      · exact h
      · exact absurd ht (t1 t)
  | head hstep rrest ih =>
      next a b =>
      intro r2 t1 t2
      rcases Relation.ReflTransGen.cases_head r2 with h | ⟨t, ht, hrest⟩
      · subst h
        exact absurd hstep (t2 _)
      · have hbt : b = t := stepRel_unique hinv.seqNodup hstep ht
        subst hbt
        exact ih (simInv_stepRel hinv hstep) hrest t1 t2

/-! ## The claims -/

/-- C1: Determinism.  For a fixed configuration, case count and seed (the
draw oracle), any two complete runs of the FIFO baseline reach the same final
state; in particular the completed-case ledgers are identical — the same
cases, in the same order, with equal stage_times maps and equal
total_latency values, since the patient records are part of the state. -/
theorem C1_determinism {c : FifoConfig} {o : Oracle} {n : Nat} {s1 s2 : SimState}
    (h1 : Reach c o (initState n o) s1) (h2 : Reach c o (initState n o) s2)
    (t1 : Terminal c o s1) (t2 : Terminal c o s2) :
    s1 = s2 ∧ s1.ledger = s2.ledger ∧ s1.pats = s2.pats := by
  have h := reach_terminal_unique_inv (simInv_init c n o) h1 h2 t1 t2
  exact ⟨h, by rw [h], by rw [h]⟩

theorem C1_determinism_witness :
    runN cfgStd oBase 16 (initState 1 oBase) = runN cfgStd oBase 16 (initState 1 oBase) ∧
    (runN cfgStd oBase 16 (initState 1 oBase)).ledger =
      (runN cfgStd oBase 16 (initState 1 oBase)).ledger ∧
    (runN cfgStd oBase 16 (initState 1 oBase)).pats =
      (runN cfgStd oBase 16 (initState 1 oBase)).pats :=
  C1_determinism (runN_reach cfgStd oBase 16 (initState 1 oBase))
    (runN_reach cfgStd oBase 16 (initState 1 oBase))
    (terminal_of_queue_empty (by decide)) (terminal_of_queue_empty (by decide))
/-- C2: Latency decomposition.  In every reachable non-halted state, each
case in the completed ledger has total_latency (recorded at completion as
env.now minus start_time) equal to the sum of its stage_times values plus its
accumulated resource-queue waiting time; and the record — total_latency
included — never changes in any later reachable state, where the case also
stays in the ledger. -/
theorem C2_latency_decomposition {c : FifoConfig} {o : Oracle} {n i : Nat} {s : SimState}
    (hr : Reach c o (initState n o) s) (herr : s.err = none) (hi : i ∈ s.ledger) :
    (getPat s i).totalLatency = (getPat s i).waitAccum + sumDur (getPat s i) ∧
    ∀ s', Reach c o s s' → getPat s' i = getPat s i ∧ i ∈ s'.ledger := by
  have H := simInv_reach (simInv_init c n o) hr
  have hb := ledgerBound_reach hr
  have hin : i < s.nPat := by
    rw [hb.1]
    exact hb.2 i hi
  have hdone : (getPat s i).phase = Phase.done := H.ledgerDone i hi
  have hp := H.pat herr i hin
  unfold patInv at hp
  rw [hdone] at hp
  refine ⟨hp.2, ?_⟩
  intro s' hr2
  exact ⟨(done_frame_reach H hr2 hdone).1, (done_frame_reach H hr2 hdone).2 hi⟩

theorem C2_latency_decomposition_witness :
    ((getPat (runN cfgStd oBase 16 (initState 1 oBase)) 0).totalLatency =
      (getPat (runN cfgStd oBase 16 (initState 1 oBase)) 0).waitAccum +
        sumDur (getPat (runN cfgStd oBase 16 (initState 1 oBase)) 0)) ∧
    ∀ s', Reach cfgStd oBase (runN cfgStd oBase 16 (initState 1 oBase)) s' →
      getPat s' 0 = getPat (runN cfgStd oBase 16 (initState 1 oBase)) 0 ∧
      0 ∈ s'.ledger :=
  C2_latency_decomposition (runN_reach cfgStd oBase 16 (initState 1 oBase))
    (by decide) (by decide)

/-- C3: Capacity invariant.  In every reachable state of a run, for every
configuration and seed, the number of concurrent holders of each resource
pool never exceeds its configured capacity. -/
theorem C3_capacity_invariant {c : FifoConfig} {o : Oracle} {n : Nat} {s : SimState}
    (hr : Reach c o (initState n o) s) :
    s.radHolders.length ≤ c.radCap ∧ s.specHolders.length ≤ c.specCap := by
  have H := simInv_reach (simInv_init c n o) hr
  exact ⟨H.radCapB, H.specCapB⟩

theorem C3_capacity_invariant_witness :
    (runN cfgCap1 oCancer2 4 (initState 3 oCancer2)).radHolders.length ≤ cfgCap1.radCap ∧
    (runN cfgCap1 oCancer2 4 (initState 3 oCancer2)).specHolders.length ≤ cfgCap1.specCap :=
  C3_capacity_invariant (runN_reach cfgCap1 oCancer2 4 (initState 3 oCancer2))
/-- C4 counterexample: the FIFO baseline's resource granting ignores the
triage class.  With radiology capacity 1, case 2 ("cancer staging", triaged
urgent) and case 1 ("diabetes", triaged normal) wait simultaneously on the
exhausted pool — the wait queue is [1, 2] — yet the next grant goes to the
earlier-arrived normal case 1 while the urgent case 2 keeps waiting, so a
higher-priority waiter is not granted before a lower-priority one. -/
theorem C4_counterexample :
    triage_patient (getPat (initState 3 oCancer2) 2).diagnosis = "urgent" ∧
    triage_patient (getPat (initState 3 oCancer2) 1).diagnosis = "normal" ∧
    (runN cfgCap1 oCancer2 3 (initState 3 oCancer2)).radQueue = [1, 2] ∧
    (runN cfgCap1 oCancer2 4 (initState 3 oCancer2)).radQueue = [2] ∧
    (runN cfgCap1 oCancer2 4 (initState 3 oCancer2)).grantLog =
      [(0, true, 0), (1, true, 1)] ∧
    cfgCap1.radCap = 1 := by decide

/-- C4 (amended): the resource pools are plain FIFO and non-preemptive.  A
request that cannot be granted immediately joins the tail of the wait queue
whatever its triage class; a release grants the freed unit to the head of the
FIFO wait queue (logged at the current instant) whatever the classes of the
waiters; and a case holding a unit is never removed by another case's
release. -/
theorem C4_fifo_granting (c : FifoConfig) (o : Oracle) (s : SimState) (i w : Nat)
    (rest : List Nat) :
    (¬ (s.radQueue = [] ∧ s.radHolders.length < c.radCap) →
      (tryAcquireRad c o s i).radQueue = s.radQueue ++ [i]) ∧
    (s.radQueue = w :: rest → (s.radHolders.erase i).length < c.radCap →
      (releaseRad c s i).grantLog = s.grantLog ++ [(s.now, true, w)] ∧
      (releaseRad c s i).radQueue = rest) ∧
    (∀ j ∈ s.radHolders, j ≠ i → j ∈ (releaseRad c s i).radHolders) := by
  refine ⟨?_, ?_, ?_⟩
  · intro h
    unfold tryAcquireRad
    rw [if_neg h]
    rfl
  · intro hq hcap
    unfold releaseRad
    split
    · next hnil =>
        rw [hq] at hnil
        exact absurd hnil (by simp)
    · next w2 rest2 hq2 =>
        rw [hq] at hq2
        injection hq2 with h1 h2
        subst h1
        subst h2
        rw [if_pos hcap]
        exact ⟨rfl, rfl⟩
  · intro j hj hji
    unfold releaseRad
    split
    · exact (List.mem_erase_of_ne hji).mpr hj
    · split
      · exact List.mem_append_left _ ((List.mem_erase_of_ne hji).mpr hj)
      · exact (List.mem_erase_of_ne hji).mpr hj

theorem C4_fifo_granting_witness :
    ((¬ ((initState 3 oCancer2).radQueue = [] ∧
        (initState 3 oCancer2).radHolders.length < cfgCap1.radCap) →
      (tryAcquireRad cfgCap1 oCancer2 (initState 3 oCancer2) 0).radQueue =
        (initState 3 oCancer2).radQueue ++ [0]) ∧
    ((initState 3 oCancer2).radQueue = 1 :: [2] →
      ((initState 3 oCancer2).radHolders.erase 0).length < cfgCap1.radCap →
      (releaseRad cfgCap1 (initState 3 oCancer2) 0).grantLog =
        (initState 3 oCancer2).grantLog ++ [((initState 3 oCancer2).now, true, 1)] ∧
      (releaseRad cfgCap1 (initState 3 oCancer2) 0).radQueue = [2]) ∧
    (∀ j ∈ (initState 3 oCancer2).radHolders, j ≠ 0 →
      j ∈ (releaseRad cfgCap1 (initState 3 oCancer2) 0).radHolders)) :=
  C4_fifo_granting cfgCap1 oCancer2 (initState 3 oCancer2) 0 1 [2]
/-- C5 counterexample: the FIFO baseline's stage samplers apply no 0.01
floor.  On a valid configuration, with the pcp exponential draw 0.005 (inside
the support of the exponential distribution), the run records the stage
duration 0.005 < 0.01 into the patient's stage_times map. -/
theorem C5_counterexample :
    ValidFifoConfig cfgStd ∧
    (getPat (runN cfgStd oTinyExp 3 (initState 1 oTinyExp)) 0).stageTimes =
      [("radiology_report", 1), ("pcp_acknowledgment", 1/200)] ∧
    ((1 : MRat)/200 < 1/100) := by decide

/-- C5 (amended): only simulation_engine.generate_delay floors its sample:
every value it returns, for either distribution family and any parameters,
is at least the fixed 0.01 minimum; the FIFO baseline's seven stage samplers
have no such floor. -/
theorem C5_generate_delay_floor (o : EngineOracle) (mean sigma : ℚ) :
    1/100 ≤ generate_delay o mean sigma :=
  le_max_left _ _

/-- C6 counterexample: the misclassification branch of classify_priority
draws from the full class list, the correct class included.  With the
random draw 0.1 ≤ 0.15 the misclassification branch is taken, yet for a
49-year-old "diabetes type 2" case the drawn class equals the rule-based
class, so a run through the error branch can still match the rule output —
with accuracy 0 the output would not "never match". -/
theorem C6_counterexample :
    ¬ ((1 : ℚ)/10 > 3/20) ∧
    classify_priority 49 "diabetes type 2" (1/10) 2 =
      classify_priority_rule 49 "diabetes type 2" := by
  constructor
  · norm_num
  · with_unfolding_all decide

/-- C6 (amended): classify_priority has a hard-coded 85 percent accuracy (no
configurable parameter): when the np.random.random draw exceeds 0.15 it
returns exactly the deterministic rule-based class, and otherwise it returns
np.random.choice over the full list ['HIGH', 'MEDIUM', 'NORMAL'] — which
includes the correct class, so the misclassification branch is not
restricted to the remaining classes. -/
theorem C6_classifier_branches (age : Nat) (diagnosis : String) (randDraw : ℚ)
    (choiceIdx : Nat) :
    (randDraw > 3/20 → classify_priority age diagnosis randDraw choiceIdx =
      classify_priority_rule age diagnosis) ∧
    (¬ randDraw > 3/20 → choiceIdx < priorityClasses.length →
      classify_priority age diagnosis randDraw choiceIdx ∈ priorityClasses) := by
  constructor
  · intro h
    unfold classify_priority
    rw [if_pos h]
  · intro h hlt
    unfold classify_priority
    rw [if_neg h]
    have hlt3 : choiceIdx < 3 := hlt
    interval_cases choiceIdx
    · decide
    · decide
    · decide
/-- C7 counterexample: there is no construction-time validation.  With an
invalid triangular triple (payer_review min 5, mode 3, max 1, so min > max),
the run starts normally and advances virtual time to 4 with four stages
completed before the payer_review sample fails mid-run with numpy's
"left > mode" ValueError. -/
theorem C7_counterexample :
    cfgBadTri.payMax < cfgBadTri.payMin ∧
    (runN cfgBadTri oBase 20 (initState 1 oBase)).err =
      some (NpError.valueError "left > mode") ∧
    (runN cfgBadTri oBase 20 (initState 1 oBase)).now = 4 ∧
    (getPat (runN cfgBadTri oBase 20 (initState 1 oBase)) 0).stageTimes.length = 4 := by
  decide

/-- C7 (amended): the repository performs no parameter validation of its own;
an invalid configuration fails mid-run at the first offending numpy sampling
call.  Conversely, on a configuration whose parameters lie in every sampled
distribution's numpy domain, no sampling call of the whole run can fail: all
reachable states are error-free. -/
theorem C7_valid_no_sampling_failure {c : FifoConfig} {o : Oracle} {n : Nat} {s : SimState}
    (hv : ValidFifoConfig c) (hr : Reach c o (initState n o) s) : s.err = none :=
  err_reach hv rfl hr

theorem C7_valid_no_sampling_failure_witness :
    (runN cfgStd oBase 16 (initState 1 oBase)).err = none :=
  C7_valid_no_sampling_failure (by decide) (runN_reach cfgStd oBase 16 (initState 1 oBase))

/-- C8 counterexample: the returned ledger is not in arrival order.  With a
huge radiology draw for case 0 and small draws for case 1, the complete
2-case run (no pending events remain) returns the ledger [1, 0]: case 0
arrives first (launch offset 0 against 0.01) but completes last, and the
ledger follows completion, listing case 1 first. -/
theorem C8_counterexample :
    (runN cfgWide oSlow0 20 (initState 2 oSlow0)).ledger = [1, 0] ∧
    (runN cfgWide oSlow0 20 (initState 2 oSlow0)).queue = [] ∧
    (getPat (runN cfgWide oSlow0 20 (initState 2 oSlow0)) 1).finishTime <
      (getPat (runN cfgWide oSlow0 20 (initState 2 oSlow0)) 0).finishTime := by
  decide

/-- C8 (amended): the ledger lists the cases in completion order, not
arrival order: each ledger entry is a completed case, and along the ledger
the recorded completion instants are non-decreasing (for draws in the
distribution supports and a non-negative Weibull scale). -/
theorem C8_ledger_completion_order {c : FifoConfig} {o : Oracle} {n : Nat} {s : SimState}
    (hnn : NonnegOracle o) (hsc : 0 ≤ c.schedScale)
    (hr : Reach c o (initState n o) s) :
    s.ledger.Pairwise (fun a b => (getPat s a).finishTime ≤ (getPat s b).finishTime) ∧
    ∀ j ∈ s.ledger, (getPat s j).phase = Phase.done := by
  have hp := invs_reach (simInv_init c n o) (timeInv_init n o) hnn hsc hr
  exact ⟨hp.2.ledgerSorted, hp.1.ledgerDone⟩

theorem C8_ledger_completion_order_witness :
    (runN cfgWide oSlow0 20 (initState 2 oSlow0)).ledger.Pairwise
      (fun a b => (getPat (runN cfgWide oSlow0 20 (initState 2 oSlow0)) a).finishTime ≤
        (getPat (runN cfgWide oSlow0 20 (initState 2 oSlow0)) b).finishTime) ∧
    ∀ j ∈ (runN cfgWide oSlow0 20 (initState 2 oSlow0)).ledger,
      (getPat (runN cfgWide oSlow0 20 (initState 2 oSlow0)) j).phase = Phase.done :=
  C8_ledger_completion_order
    ⟨fun k _ _ => by show (0 : MRat) ≤ if k = 4 then 24000 else 24; split <;> decide,
     fun _ _ => by show (0 : MRat) ≤ 1; decide,
     fun _ _ _ => by show (0 : MRat) ≤ 1; decide,
     fun _ _ _ _ => by show (0 : MRat) ≤ 1; decide,
     fun _ _ => by show (0 : MRat) ≤ 1; decide⟩
    (by decide) (runN_reach cfgWide oSlow0 20 (initState 2 oSlow0))
/-- C9: generate_delay selects the distribution family from the mean alone:
below 1.0 it samples the Normal family, at or above 1.0 the Lognormal family
(with the converted underlying parameters folded into the oracle), in both
cases floored at 0.01; the stage name and scenario play no role.  In
particular the orchestrator's pcp_ack (mean 2.0) and scheduling (mean 24.0)
entries fall in the Lognormal branch. -/
theorem C9_family_threshold (o : EngineOracle) (mean sigma : ℚ) :
    (mean < 1 → generate_delay o mean sigma = max (1/100) (o.normalDraw mean sigma)) ∧
    (1 ≤ mean → generate_delay o mean sigma = max (1/100) (o.lognormalDraw mean sigma)) ∧
    ("pcp_ack", (2 : ℚ), (1/5 : ℚ)) ∈ ORCHESTRATOR_PARAMS ∧
    ("scheduling", (24 : ℚ), (4 : ℚ)) ∈ ORCHESTRATOR_PARAMS ∧ ¬ ((2 : ℚ) < 1) := by
  refine ⟨?_, ?_, ?_, ?_, ?_⟩
  · intro h
    unfold generate_delay
    rw [if_pos h]
  · intro h
    unfold generate_delay
    rw [if_neg (not_lt.mpr h)]
  · simp [ORCHESTRATOR_PARAMS]
  · simp [ORCHESTRATOR_PARAMS]
  · norm_num

/-- C10: classify_urgency is total with range {URGENT, HIGH, NORMAL}, and the
age rule has precedence: any case aged 65 or over is classified HIGH even
when the diagnosis carries an urgent keyword; an urgent keyword yields
URGENT only below age 65. -/
theorem C10_triage_precedence (age : Nat) (diagnosis : String) :
    (classify_urgency age diagnosis = "URGENT" ∨ classify_urgency age diagnosis = "HIGH" ∨
      classify_urgency age diagnosis = "NORMAL") ∧
    (65 ≤ age → classify_urgency age diagnosis = "HIGH") ∧
    (age < 65 → RULES_urgent_keywords.any (fun kw => containsLower diagnosis kw) = true →
      classify_urgency age diagnosis = "URGENT") := by
  refine ⟨?_, ?_, ?_⟩
  · unfold classify_urgency
    split
    · exact Or.inr (Or.inl rfl)
    · split
      · exact Or.inl rfl
      · split
        · exact Or.inr (Or.inl rfl)
        · exact Or.inr (Or.inr rfl)
  · intro h
    unfold classify_urgency
    rw [if_pos (show RULES_age_threshold ≤ age from h)]
  · intro h hkw
    unfold classify_urgency
    rw [if_neg (show ¬ RULES_age_threshold ≤ age from not_le.mpr h), if_pos hkw]
